import Mathlib

/-!
# Verification of the LFU cache in `src/lfu_cache.h`

This file is a shallow embedding of the C++ class `LFUCache<Key, Value, MaxSize>`
from `src/lfu_cache.h`.  Raw node pointers of the C++ code are represented as
indices into the fixed node pool (`Option Nat`, with `none` for `nullptr`);
both `std::unordered_map`s are represented as association lists whose keys are
unique by construction; the two fixed-size `std::array`s are represented as
lists of length `MaxSize`.  C++ `int` fields are modelled as `Int` where they
can meaningfully be negative (frequencies, bucket size counters) and as `Nat`
for the two counters that the code only ever decrements under a positivity
guard (`poolSize_`, `freeCount_`).

Undefined behaviour of the original (dereferencing a null `tail` pointer
during eviction, writing past the end of `freeNodes_`) is made explicit: the
corresponding operations return `Except.error CErr.ub`, and the
pool-exhaustion `throw` in `allocateNode` returns
`Except.error CErr.poolExhausted`.  `getOrThrow`'s "key not found" exception
is modelled by `Option` (the throw happens before any mutation, so the cache
is returned unchanged by the driver `step`).
-/

namespace LFU

/-- One cache entry of the node pool, mirroring `LFUCache::Node`
(`frequency`, `prev`, `next`, `key`, `value`); `prev`/`next` are pool
indices standing for the C++ node pointers.  The default value mirrors the
default constructor `Node()` (frequency `0`, null links). -/
structure Node (K V : Type) where
  frequency : Int
  prev : Option Nat
  next : Option Nat
  key : K
  value : V
  deriving Repr, DecidableEq

instance (K V : Type) [Inhabited K] [Inhabited V] : Inhabited (Node K V) :=
  ⟨{ frequency := 0, prev := none, next := none, key := default, value := default }⟩

/-- Mirror of `LFUCache::FrequencyList`: head/tail pool indices and the
`int size` counter of the doubly linked bucket list. -/
structure FrequencyList where
  head : Option Nat
  tail : Option Nat
  size : Int
  deriving Repr, DecidableEq

/-- `FrequencyList()` constructor: empty list. -/
def FrequencyList.init : FrequencyList := { head := none, tail := none, size := 0 }

section Defs

variable {K V : Type} [DecidableEq K] [Inhabited K] [Inhabited V]

/-- Read a pool slot (`nodePool_[i]`); out-of-range reads never occur in the
modelled runs, the default is only a total-function filler. -/
def getN (pool : List (Node K V)) (i : Nat) : Node K V :=
  (pool.get? i).getD default

/-- Write the `prev` field of slot `i` (`node->prev = p`). -/
def setPrev (pool : List (Node K V)) (i : Nat) (p : Option Nat) : List (Node K V) :=
  pool.set i { getN pool i with prev := p }

/-- Write the `next` field of slot `i` (`node->next = q`). -/
def setNext (pool : List (Node K V)) (i : Nat) (q : Option Nat) : List (Node K V) :=
  pool.set i { getN pool i with next := q }

/-- Write the `frequency` field of slot `i` (`node->frequency = f`). -/
def setFreq (pool : List (Node K V)) (i : Nat) (f : Int) : List (Node K V) :=
  pool.set i { getN pool i with frequency := f }

/-- Write the `value` field of slot `i` (`node->value = v`). -/
def setValue (pool : List (Node K V)) (i : Nat) (v : V) : List (Node K V) :=
  pool.set i { getN pool i with value := v }

/-- `std::unordered_map` lookup (`find`). -/
def findA? {α β : Type} [DecidableEq α] : List (α × β) → α → Option β
  | [], _ => none
  | (a, b) :: l, k => if a = k then some b else findA? l k

/-- `std::unordered_map` insert-or-assign (`map[k] = v`). -/
def insertA {α β : Type} [DecidableEq α] : List (α × β) → α → β → List (α × β)
  | [], k, v => [(k, v)]
  | (a, b) :: l, k, v => if a = k then (k, v) :: l else (a, b) :: insertA l k v

/-- `std::unordered_map` erase by key. -/
def eraseA {α β : Type} [DecidableEq α] : List (α × β) → α → List (α × β)
  | [], _ => []
  | (a, b) :: l, k => if a = k then l else (a, b) :: eraseA l k

/-- The keys of an association list. -/
def keysOf {α β : Type} (l : List (α × β)) : List α := l.map Prod.fst

/-- `FrequencyList::addToHead(node)`, acting on the pool (the intrusive links)
and the list record, in the statement order of the source. -/
def FrequencyList.addToHead (pool : List (Node K V)) (fl : FrequencyList) (idx : Nat) :
    List (Node K V) × FrequencyList :=
  let pool1 := setPrev pool idx none
  let pool2 := setNext pool1 idx fl.head
  let pool3 :=
    match fl.head with
    | some h => setPrev pool2 h (some idx)
    | none => pool2
  let tl :=
    match fl.tail with
    | none => some idx
    | some t => some t
  (pool3, { head := some idx, tail := tl, size := fl.size + 1 })

/-- `FrequencyList::remove(node)`; the node is re-read after each pointer
write exactly as the C++ statements re-read `node->prev`/`node->next`. -/
def FrequencyList.removeNode (pool : List (Node K V)) (fl : FrequencyList) (idx : Nat) :
    List (Node K V) × FrequencyList :=
  let n0 := getN pool idx
  let step1 : List (Node K V) × Option Nat :=
    match n0.prev with
    | some p => (setNext pool p n0.next, fl.head)
    | none => (pool, n0.next)
  let pool1 := step1.1
  let n1 := getN pool1 idx
  let step2 : List (Node K V) × Option Nat :=
    match n1.next with
    | some q => (setPrev pool1 q n1.prev, fl.tail)
    | none => (pool1, n1.prev)
  let pool2 := step2.1
  let pool3 := setPrev pool2 idx none
  let pool4 := setNext pool3 idx none
  (pool4, { head := step1.2, tail := step2.2, size := fl.size - 1 })

/-- Errors of the embedded operations: the pool-exhaustion `throw` of
`allocateNode`, and undefined behaviour (`ub`: null `tail` dereference in
`put`'s eviction, or the out-of-bounds `freeNodes_[freeCount_]` write). -/
inductive CErr where
  | poolExhausted
  | ub
  deriving Repr, DecidableEq

/-- The cache state: all data members of `LFUCache<K, V, MaxSize>`, with the
template parameter `MaxSize` carried as the field `maxSize`. -/
structure LFUCache (K V : Type) where
  maxSize : Nat
  minFrequency : Int
  nodePool : List (Node K V)
  freeNodes : List Nat
  poolSize : Nat
  freeCount : Nat
  keyToNode : List (K × Nat)
  frequencyToList : List (Int × FrequencyList)
  deriving Repr, DecidableEq

/-- The constructor `LFUCache()`: empty maps, zero counters.  (The
`static_assert(MaxSize > 0)` is reflected as a `0 < maxSize` hypothesis of
the theorems that need it.)  Pool slots start as default-constructed
`Node()`s; `freeNodes_` is an uninitialised `std::array<int>`, modelled by
zeros, read only below `freeCount_`. -/
def LFUCache.mkCache (K V : Type) [Inhabited K] [Inhabited V] (M : Nat) : LFUCache K V :=
  { maxSize := M
    minFrequency := 0
    nodePool := List.replicate M default
    freeNodes := List.replicate M 0
    poolSize := 0
    freeCount := 0
    keyToNode := []
    frequencyToList := [] }

/-- `LFUCache::allocateNode(key, value, frequency)`: pop a freed slot if the
free stack is non-empty, otherwise use the next never-used slot, throwing
`poolExhausted` when the cursor has reached `MaxSize`. -/
def allocateNode (c : LFUCache K V) (k : K) (v : V) (f : Int) :
    Except CErr (LFUCache K V × Nat) :=
  if 0 < c.freeCount then
    let fc := c.freeCount - 1
    let idx := c.freeNodes.getD fc 0
    let pool := c.nodePool.set idx
      { frequency := f, prev := none, next := none, key := k, value := v }
    .ok ({ c with freeCount := fc, nodePool := pool }, idx)
  else if c.maxSize ≤ c.poolSize then
    .error .poolExhausted
  else
    let idx := c.poolSize
    let pool := c.nodePool.set idx
      { frequency := f, prev := none, next := none, key := k, value := v }
    .ok ({ c with nodePool := pool, poolSize := c.poolSize + 1 }, idx)

/-- `LFUCache::deallocateNode(node)`: push the slot index on the free stack.
The write `freeNodes_[freeCount_] = idx` is out of bounds when
`freeCount_ = MaxSize`; that (unreachable) case is undefined behaviour. -/
def deallocateNode (c : LFUCache K V) (idx : Nat) : Except CErr (LFUCache K V) :=
  if c.freeCount < c.maxSize then
    .ok { c with freeNodes := c.freeNodes.set c.freeCount idx,
                 freeCount := c.freeCount + 1 }
  else
    .error .ub

/-- `LFUCache::updateFrequency(node)`: unlink from the old bucket (erasing it
if emptied), bump the frequency, push at the head of the next bucket, and
advance `minFrequency_` when the old minimum bucket disappeared. -/
def updateFrequency (c : LFUCache K V) (idx : Nat) : LFUCache K V :=
  let oldFreq := (getN c.nodePool idx).frequency
  let newFreq := oldFreq + 1
  let removed : List (Node K V) × List (Int × FrequencyList) :=
    match findA? c.frequencyToList oldFreq with
    | some fl =>
      let pr := FrequencyList.removeNode c.nodePool fl idx
      if pr.2.size = 0 then (pr.1, eraseA c.frequencyToList oldFreq)
      else (pr.1, insertA c.frequencyToList oldFreq pr.2)
    | none => (c.nodePool, c.frequencyToList)
  let pool1 := setFreq removed.1 idx newFreq
  let cur := (findA? removed.2 newFreq).getD FrequencyList.init
  let ah := FrequencyList.addToHead pool1 cur idx
  let buckets := insertA removed.2 newFreq ah.2
  let minF :=
    if oldFreq = c.minFrequency ∧ findA? buckets c.minFrequency = none
    then c.minFrequency + 1 else c.minFrequency
  { c with nodePool := ah.1, frequencyToList := buckets, minFrequency := minF }

/-- `LFUCache::get(key)` (noexcept): default value on a miss, otherwise bump
the frequency and return the stored value. -/
def get (c : LFUCache K V) (k : K) : V × LFUCache K V :=
  match findA? c.keyToNode k with
  | none => (default, c)
  | some idx =>
    let c2 := updateFrequency c idx
    ((getN c2.nodePool idx).value, c2)

/-- `LFUCache::getOrThrow(key)`: `none` models the thrown
"Key not found" `std::runtime_error` (raised before any mutation). -/
def getOrThrow (c : LFUCache K V) (k : K) : Option (V × LFUCache K V) :=
  match findA? c.keyToNode k with
  | none => none
  | some idx =>
    let c2 := updateFrequency c idx
    some ((getN c2.nodePool idx).value, c2)

/-- `LFUCache::getOrDefault(key, defaultValue)` (noexcept). -/
def getOrDefault (c : LFUCache K V) (k : K) (d : V) : V × LFUCache K V :=
  match findA? c.keyToNode k with
  | none => (d, c)
  | some idx =>
    let c2 := updateFrequency c idx
    ((getN c2.nodePool idx).value, c2)

/-- `LFUCache::contains(key)` (const, noexcept). -/
def contains (c : LFUCache K V) (k : K) : Bool :=
  (findA? c.keyToNode k).isSome

/-- `LFUCache::put(key, value)`: update-and-bump for an existing key;
otherwise evict the tail of the minimum-frequency bucket when at capacity,
then allocate a fresh frequency-1 node at the head of bucket 1. -/
def put (c : LFUCache K V) (k : K) (v : V) : Except CErr (LFUCache K V) :=
  match findA? c.keyToNode k with
  | some idx =>
    let c1 := { c with nodePool := setValue c.nodePool idx v }
    .ok (updateFrequency c1 idx)
  | none =>
    let afterEvict : Except CErr (LFUCache K V) :=
      if c.maxSize ≤ c.keyToNode.length then
        match findA? c.frequencyToList c.minFrequency with
        | some fl =>
          if fl.size = 0 then .ok c
          else
            match fl.tail with
            | none => .error .ub
            | some lru =>
              let pr := FrequencyList.removeNode c.nodePool fl lru
              let evKey := (getN pr.1 lru).key
              let c1 := { c with nodePool := pr.1,
                                 keyToNode := eraseA c.keyToNode evKey }
              match deallocateNode c1 lru with
              | .error e => .error e
              | .ok c2 =>
                if pr.2.size = 0 then
                  .ok { c2 with frequencyToList := eraseA c2.frequencyToList c.minFrequency }
                else
                  .ok { c2 with frequencyToList := insertA c2.frequencyToList c.minFrequency pr.2 }
        | none => .ok c
      else .ok c
    match afterEvict with
    | .error e => .error e
    | .ok c3 =>
      match allocateNode c3 k v 1 with
      | .error e => .error e
      | .ok (c4, idx) =>
        let cur := (findA? c4.frequencyToList 1).getD FrequencyList.init
        let ah := FrequencyList.addToHead c4.nodePool cur idx
        .ok { c4 with keyToNode := insertA c4.keyToNode k idx,
                      nodePool := ah.1,
                      frequencyToList := insertA c4.frequencyToList 1 ah.2,
                      minFrequency := 1 }

/-- `LFUCache::size()`: `static_cast<int>(keyToNode_.size())`. -/
def size (c : LFUCache K V) : Int := (c.keyToNode.length : Int)

/-- `LFUCache::capacity()`: the template constant `MaxSize`. -/
def capacity (c : LFUCache K V) : Nat := c.maxSize

/-- `LFUCache::clear()`: empty both maps, refill `freeNodes_[0..poolSize_)`
with `std::iota`, set `freeCount_ = poolSize_`, `poolSize_ = 0`,
`minFrequency_ = 0`. -/
def clear (c : LFUCache K V) : LFUCache K V :=
  let fre :=
    if 0 < c.poolSize then List.range c.poolSize ++ c.freeNodes.drop c.poolSize
    else c.freeNodes
  { c with keyToNode := []
           frequencyToList := []
           freeNodes := fre
           freeCount := c.poolSize
           poolSize := 0
           minFrequency := 0 }

/-- One public operation of the API table. -/
inductive Op (K V : Type) where
  | put (k : K) (v : V)
  | get (k : K)
  | getOrThrow (k : K)
  | getOrDefault (k : K) (d : V)
  | contains (k : K)
  | size
  | capacity
  | clear

/-- Execute one operation.  Observers keep the state; a thrown
"key not found" is absorbed by the caller, so `getOrThrow` on a miss also
keeps the state; `put` propagates pool exhaustion or undefined behaviour. -/
def step (c : LFUCache K V) : Op K V → Except CErr (LFUCache K V)
  | .put k v => put c k v
  | .get k => .ok (get c k).2
  | .getOrThrow k =>
    match getOrThrow c k with
    | none => .ok c
    | some r => .ok r.2
  | .getOrDefault k d => .ok (getOrDefault c k d).2
  | .contains _ => .ok c
  | .size => .ok c
  | .capacity => .ok c
  | .clear => .ok (clear c)

/-- Execute a sequence of operations from a state. -/
def run (c : LFUCache K V) : List (Op K V) → Except CErr (LFUCache K V)
  | [] => .ok c
  | op :: ops =>
    match step c op with
    | .ok c2 => run c2 ops
    | .error e => .error e

end Defs

end LFU

namespace LFU

section BasicLemmas

variable {K V : Type} [DecidableEq K] [Inhabited K] [Inhabited V]

theorem getN_set (pool : List (Node K V)) (i j : Nat) (n : Node K V) :
    getN (pool.set i n) j = if i = j ∧ i < pool.length then n else getN pool j := by
  induction pool generalizing i j with
  | nil => simp [List.set]
  | cons a l ih =>
    cases i with
    | zero =>
      cases j with
      | zero => simp [getN]
      | succ j' => simp [getN, List.set]
    | succ i' =>
      cases j with
      | zero => simp [getN, List.set]
      | succ j' =>
        have := ih i' j'
        simp only [List.set, getN, List.get?] at this ⊢
        rw [this]
        by_cases hij : i' = j' <;> simp [hij, Nat.succ_lt_succ_iff]

theorem length_setPrev (pool : List (Node K V)) (i : Nat) (p : Option Nat) :
    (setPrev pool i p).length = pool.length := by simp [setPrev]

theorem length_setNext (pool : List (Node K V)) (i : Nat) (q : Option Nat) :
    (setNext pool i q).length = pool.length := by simp [setNext]

theorem length_setFreq (pool : List (Node K V)) (i : Nat) (f : Int) :
    (setFreq pool i f).length = pool.length := by simp [setFreq]

theorem length_setValue (pool : List (Node K V)) (i : Nat) (v : V) :
    (setValue pool i v).length = pool.length := by simp [setValue]

theorem getN_setPrev (pool : List (Node K V)) (i j : Nat) (p : Option Nat) :
    getN (setPrev pool i p) j =
      if i = j ∧ i < pool.length then { getN pool i with prev := p } else getN pool j := by
  simp [setPrev, getN_set]

theorem getN_setNext (pool : List (Node K V)) (i j : Nat) (q : Option Nat) :
    getN (setNext pool i q) j =
      if i = j ∧ i < pool.length then { getN pool i with next := q } else getN pool j := by
  simp [setNext, getN_set]

theorem getN_setFreq (pool : List (Node K V)) (i j : Nat) (f : Int) :
    getN (setFreq pool i f) j =
      if i = j ∧ i < pool.length then { getN pool i with frequency := f } else getN pool j := by
  simp [setFreq, getN_set]

theorem getN_setValue (pool : List (Node K V)) (i j : Nat) (v : V) :
    getN (setValue pool i v) j =
      if i = j ∧ i < pool.length then { getN pool i with value := v } else getN pool j := by
  simp [setValue, getN_set]

theorem key_setPrev (pool : List (Node K V)) (i j : Nat) (p : Option Nat) :
    (getN (setPrev pool i p) j).key = (getN pool j).key := by
  rw [getN_setPrev]; split
  · rename_i h; rw [h.1]
  · rfl

theorem key_setNext (pool : List (Node K V)) (i j : Nat) (q : Option Nat) :
    (getN (setNext pool i q) j).key = (getN pool j).key := by
  rw [getN_setNext]; split
  · rename_i h; rw [h.1]
  · rfl

theorem key_setFreq (pool : List (Node K V)) (i j : Nat) (f : Int) :
    (getN (setFreq pool i f) j).key = (getN pool j).key := by
  rw [getN_setFreq]; split
  · rename_i h; rw [h.1]
  · rfl

theorem key_setValue (pool : List (Node K V)) (i j : Nat) (v : V) :
    (getN (setValue pool i v) j).key = (getN pool j).key := by
  rw [getN_setValue]; split
  · rename_i h; rw [h.1]
  · rfl

theorem value_setPrev (pool : List (Node K V)) (i j : Nat) (p : Option Nat) :
    (getN (setPrev pool i p) j).value = (getN pool j).value := by
  rw [getN_setPrev]; split
  · rename_i h; rw [h.1]
  · rfl

theorem value_setNext (pool : List (Node K V)) (i j : Nat) (q : Option Nat) :
    (getN (setNext pool i q) j).value = (getN pool j).value := by
  rw [getN_setNext]; split
  · rename_i h; rw [h.1]
  · rfl

theorem value_setFreq (pool : List (Node K V)) (i j : Nat) (f : Int) :
    (getN (setFreq pool i f) j).value = (getN pool j).value := by
  rw [getN_setFreq]; split
  · rename_i h; rw [h.1]
  · rfl

theorem freq_setPrev (pool : List (Node K V)) (i j : Nat) (p : Option Nat) :
    (getN (setPrev pool i p) j).frequency = (getN pool j).frequency := by
  rw [getN_setPrev]; split
  · rename_i h; rw [h.1]
  · rfl

theorem freq_setNext (pool : List (Node K V)) (i j : Nat) (q : Option Nat) :
    (getN (setNext pool i q) j).frequency = (getN pool j).frequency := by
  rw [getN_setNext]; split
  · rename_i h; rw [h.1]
  · rfl

theorem freq_setValue (pool : List (Node K V)) (i j : Nat) (v : V) :
    (getN (setValue pool i v) j).frequency = (getN pool j).frequency := by
  rw [getN_setValue]; split
  · rename_i h; rw [h.1]
  · rfl

theorem removeNode_length (pool : List (Node K V)) (fl : FrequencyList) (idx : Nat) :
    (FrequencyList.removeNode pool fl idx).1.length = pool.length := by
  unfold FrequencyList.removeNode
  dsimp only
  split <;> dsimp only <;> split <;>
    simp [length_setPrev, length_setNext]

theorem addToHead_length (pool : List (Node K V)) (fl : FrequencyList) (idx : Nat) :
    (FrequencyList.addToHead pool fl idx).1.length = pool.length := by
  unfold FrequencyList.addToHead
  cases fl.head <;> simp [length_setPrev, length_setNext]

end BasicLemmas

end LFU

namespace LFU

set_option linter.unusedSectionVars false

section FieldLemmas

variable {K V : Type} [DecidableEq K] [Inhabited K] [Inhabited V]

theorem removeNode_key (pool : List (Node K V)) (fl : FrequencyList) (idx j : Nat) :
    (getN (FrequencyList.removeNode pool fl idx).1 j).key = (getN pool j).key := by
  unfold FrequencyList.removeNode
  dsimp only
  split <;> dsimp only <;> split <;>
    simp [key_setPrev, key_setNext]

theorem removeNode_value (pool : List (Node K V)) (fl : FrequencyList) (idx j : Nat) :
    (getN (FrequencyList.removeNode pool fl idx).1 j).value = (getN pool j).value := by
  unfold FrequencyList.removeNode
  dsimp only
  split <;> dsimp only <;> split <;>
    simp [value_setPrev, value_setNext]

theorem removeNode_freq (pool : List (Node K V)) (fl : FrequencyList) (idx j : Nat) :
    (getN (FrequencyList.removeNode pool fl idx).1 j).frequency = (getN pool j).frequency := by
  unfold FrequencyList.removeNode
  dsimp only
  split <;> dsimp only <;> split <;>
    simp [freq_setPrev, freq_setNext]

theorem addToHead_key (pool : List (Node K V)) (fl : FrequencyList) (idx j : Nat) :
    (getN (FrequencyList.addToHead pool fl idx).1 j).key = (getN pool j).key := by
  unfold FrequencyList.addToHead
  dsimp only
  split <;> simp [key_setPrev, key_setNext]

theorem addToHead_value (pool : List (Node K V)) (fl : FrequencyList) (idx j : Nat) :
    (getN (FrequencyList.addToHead pool fl idx).1 j).value = (getN pool j).value := by
  unfold FrequencyList.addToHead
  dsimp only
  split <;> simp [value_setPrev, value_setNext]

theorem addToHead_freq (pool : List (Node K V)) (fl : FrequencyList) (idx j : Nat) :
    (getN (FrequencyList.addToHead pool fl idx).1 j).frequency = (getN pool j).frequency := by
  unfold FrequencyList.addToHead
  dsimp only
  split <;> simp [freq_setPrev, freq_setNext]

theorem addToHead_head (pool : List (Node K V)) (fl : FrequencyList) (idx : Nat) :
    (FrequencyList.addToHead pool fl idx).2.head = some idx := rfl

theorem updateFrequency_keyToNode (c : LFUCache K V) (idx : Nat) :
    (updateFrequency c idx).keyToNode = c.keyToNode := rfl

theorem updateFrequency_maxSize (c : LFUCache K V) (idx : Nat) :
    (updateFrequency c idx).maxSize = c.maxSize := rfl

theorem updateFrequency_freeNodes (c : LFUCache K V) (idx : Nat) :
    (updateFrequency c idx).freeNodes = c.freeNodes := rfl

theorem updateFrequency_poolSize (c : LFUCache K V) (idx : Nat) :
    (updateFrequency c idx).poolSize = c.poolSize := rfl

theorem updateFrequency_freeCount (c : LFUCache K V) (idx : Nat) :
    (updateFrequency c idx).freeCount = c.freeCount := rfl

theorem updateFrequency_key (c : LFUCache K V) (idx j : Nat) :
    (getN (updateFrequency c idx).nodePool j).key = (getN c.nodePool j).key := by
  unfold updateFrequency
  dsimp only
  split
  · split <;> simp [addToHead_key, key_setFreq, removeNode_key]
  · simp [addToHead_key, key_setFreq]

theorem updateFrequency_value (c : LFUCache K V) (idx j : Nat) :
    (getN (updateFrequency c idx).nodePool j).value = (getN c.nodePool j).value := by
  unfold updateFrequency
  dsimp only
  split
  · split <;> simp [addToHead_value, value_setFreq, removeNode_value]
  · simp [addToHead_value, value_setFreq]

theorem updateFrequency_pool_length (c : LFUCache K V) (idx : Nat) :
    (updateFrequency c idx).nodePool.length = c.nodePool.length := by
  unfold updateFrequency
  dsimp only
  split
  · split <;> simp [addToHead_length, length_setFreq, removeNode_length]
  · simp [addToHead_length, length_setFreq]

theorem updateFrequency_freq_self (c : LFUCache K V) (idx : Nat)
    (h : idx < c.nodePool.length) :
    (getN (updateFrequency c idx).nodePool idx).frequency
      = (getN c.nodePool idx).frequency + 1 := by
  unfold updateFrequency
  dsimp only
  split
  · split <;>
      rw [addToHead_freq, getN_setFreq,
        if_pos ⟨rfl, by rw [removeNode_length]; exact h⟩]
  · rw [addToHead_freq, getN_setFreq, if_pos ⟨rfl, h⟩]

end FieldLemmas

section AListLemmas

variable {α β : Type} [DecidableEq α]

theorem findA?_insertA_self (l : List (α × β)) (k : α) (v : β) :
    findA? (insertA l k v) k = some v := by
  induction l with
  | nil => simp [insertA, findA?]
  | cons p l ih =>
    by_cases h : p.1 = k <;> simp [insertA, findA?, h, ih]

theorem findA?_insertA_ne (l : List (α × β)) (k k' : α) (v : β) (h : k ≠ k') :
    findA? (insertA l k v) k' = findA? l k' := by
  induction l with
  | nil => simp [insertA, findA?, h]
  | cons p l ih =>
    by_cases hp : p.1 = k
    · simp [insertA, findA?, hp, h]
    · by_cases hp' : p.1 = k' <;> simp [insertA, findA?, hp, hp', ih, h.symm]

theorem findA?_eraseA_ne (l : List (α × β)) (k k' : α) (h : k ≠ k') :
    findA? (eraseA l k) k' = findA? l k' := by
  induction l with
  | nil => simp [eraseA]
  | cons p l ih =>
    by_cases hp : p.1 = k
    · have : p.1 ≠ k' := by rw [hp]; exact h
      simp [eraseA, findA?, hp, this, h]
    · by_cases hp' : p.1 = k' <;> simp [eraseA, findA?, hp, hp', ih, h.symm]

theorem mem_keysOf_iff_findA? (l : List (α × β)) (k : α) :
    k ∈ keysOf l ↔ (findA? l k).isSome := by
  induction l with
  | nil => simp [keysOf, findA?]
  | cons p l ih =>
    by_cases h : p.1 = k
    · simp [keysOf, findA?, h]
    · simp only [keysOf, List.map_cons, List.mem_cons] at ih ⊢
      rw [findA?]
      simp [h, ih, Ne.symm h]

theorem findA?_isSome_of_mem (l : List (α × β)) (p : α × β) (h : p ∈ l) :
    (findA? l p.1).isSome := by
  rw [← mem_keysOf_iff_findA?]
  exact List.mem_map_of_mem Prod.fst h

theorem length_eraseA_of_found (l : List (α × β)) (k : α)
    (h : (findA? l k).isSome) :
    (eraseA l k).length + 1 = l.length := by
  induction l with
  | nil => simp [findA?] at h
  | cons p l ih =>
    by_cases hp : p.1 = k
    · simp [eraseA, hp]
    · rw [findA?] at h
      simp only [hp, if_neg] at h
      simp [eraseA, hp, ih h]

theorem eraseA_of_not_found (l : List (α × β)) (k : α)
    (h : findA? l k = none) :
    eraseA l k = l := by
  induction l with
  | nil => simp [eraseA]
  | cons p l ih =>
    rw [findA?] at h
    by_cases hp : p.1 = k
    · simp [hp] at h
    · simp only [hp, if_neg] at h
      simp [eraseA, hp, ih h]

theorem length_insertA_of_not_found (l : List (α × β)) (k : α) (v : β)
    (h : findA? l k = none) :
    (insertA l k v).length = l.length + 1 := by
  induction l with
  | nil => simp [insertA]
  | cons p l ih =>
    rw [findA?] at h
    by_cases hp : p.1 = k
    · simp [hp] at h
    · simp only [hp, if_neg] at h
      simp [insertA, hp, ih h]

theorem length_insertA_of_found (l : List (α × β)) (k : α) (v : β)
    (h : (findA? l k).isSome) :
    (insertA l k v).length = l.length := by
  induction l with
  | nil => simp [findA?] at h
  | cons p l ih =>
    by_cases hp : p.1 = k
    · simp [insertA, hp]
    · rw [findA?] at h
      simp only [hp, if_neg] at h
      simp [insertA, hp, ih h]

theorem mem_insertA (l : List (α × β)) (k : α) (v : β) (p : α × β)
    (h : p ∈ insertA l k v) : p = (k, v) ∨ p ∈ l := by
  induction l with
  | nil => simpa [insertA] using h
  | cons q l ih =>
    by_cases hq : q.1 = k
    · simp only [insertA, hq, if_pos] at h
      rcases List.mem_cons.1 h with h1 | h1
      · exact Or.inl h1
      · exact Or.inr (List.mem_cons_of_mem _ h1)
    · simp only [insertA, hq, if_neg] at h
      rcases List.mem_cons.1 h with h1 | h1
      · exact Or.inr (h1 ▸ List.mem_cons_self _ _)
      · rcases ih h1 with h2 | h2
        · exact Or.inl h2
        · exact Or.inr (List.mem_cons_of_mem _ h2)

theorem mem_eraseA (l : List (α × β)) (k : α) (p : α × β)
    (h : p ∈ eraseA l k) : p ∈ l := by
  induction l with
  | nil => simpa [eraseA] using h
  | cons q l ih =>
    by_cases hq : q.1 = k
    · simp only [eraseA, hq, if_pos] at h
      exact List.mem_cons_of_mem _ h
    · simp only [eraseA, hq, if_neg] at h
      rcases List.mem_cons.1 h with h1 | h1
      · exact h1 ▸ List.mem_cons_self _ _
      · exact List.mem_cons_of_mem _ (ih h1)

theorem keysOf_nodup_insertA (l : List (α × β)) (k : α) (v : β)
    (h : (keysOf l).Nodup) : (keysOf (insertA l k v)).Nodup := by
  induction l with
  | nil => simp [insertA, keysOf]
  | cons q l ih =>
    simp only [keysOf, List.map_cons, List.nodup_cons] at h
    by_cases hq : q.1 = k
    · simp only [insertA, if_pos hq, keysOf, List.map_cons, List.nodup_cons]
      exact ⟨hq ▸ h.1, h.2⟩
    · simp only [insertA, if_neg hq, keysOf, List.map_cons, List.nodup_cons]
      refine ⟨fun hc => ?_, ih h.2⟩
      rcases List.mem_map.1 hc with ⟨p, hp, he⟩
      rcases mem_insertA l k v p hp with h1 | h1
      · apply hq; rw [h1] at he; exact he.symm
      · exact h.1 (he ▸ List.mem_map_of_mem Prod.fst h1)

theorem keysOf_nodup_eraseA (l : List (α × β)) (k : α)
    (h : (keysOf l).Nodup) : (keysOf (eraseA l k)).Nodup := by
  induction l with
  | nil => simp [eraseA, keysOf]
  | cons q l ih =>
    simp only [keysOf, List.map_cons, List.nodup_cons] at h
    by_cases hq : q.1 = k
    · simp only [eraseA, if_pos hq]
      exact h.2
    · simp only [eraseA, if_neg hq, keysOf, List.map_cons, List.nodup_cons]
      refine ⟨fun hc => ?_, ih h.2⟩
      rcases List.mem_map.1 hc with ⟨p, hp, he⟩
      exact h.1 (he ▸ List.mem_map_of_mem Prod.fst (mem_eraseA l k p hp))

end AListLemmas

end LFU

namespace LFU

section DirectClaims

variable {K V : Type} [DecidableEq K] [Inhabited K] [Inhabited V]

theorem updateFrequency_newBucket_head (c : LFUCache K V) (idx : Nat) :
    ∃ fl : FrequencyList,
      findA? (updateFrequency c idx).frequencyToList
          ((getN c.nodePool idx).frequency + 1) = some fl
      ∧ fl.head = some idx := by
  unfold updateFrequency
  dsimp only
  exact ⟨_, findA?_insertA_self _ _ _, addToHead_head _ _ _⟩

/-- Claim C6. `getOrThrow(k)` fails with the `KeyNotFound` condition exactly
when `k` is absent; a failing call leaves the whole cache state unchanged
(the throw precedes every mutation), and a successful call returns the same
value with the same side effects as `get(k)`. -/
theorem getOrThrow_fails_iff_absent (c : LFUCache K V) (k : K) :
    (getOrThrow c k = none ↔ contains c k = false)
    ∧ (getOrThrow c k = none → step c (Op.getOrThrow k) = .ok c)
    ∧ (contains c k = true → getOrThrow c k = some (get c k)) := by
  rcases hf : findA? c.keyToNode k with _ | idx <;>
    simp [getOrThrow, contains, get, step, hf]

theorem getOrThrow_fails_iff_absent_witness :
    getOrThrow (LFUCache.mkCache Nat Nat 2) 7 = none
    ∧ step (LFUCache.mkCache Nat Nat 2) (Op.getOrThrow 7)
        = .ok (LFUCache.mkCache Nat Nat 2) :=
  ⟨(getOrThrow_fails_iff_absent (LFUCache.mkCache Nat Nat 2) 7).1.mpr (by decide),
   (getOrThrow_fails_iff_absent (LFUCache.mkCache Nat Nat 2) 7).2.1
     ((getOrThrow_fails_iff_absent (LFUCache.mkCache Nat Nat 2) 7).1.mpr (by decide))⟩

/-- Claim C7. On an absent key, `get` returns the default-constructed value and
`getOrDefault` returns the caller-supplied fallback, and both leave the
entire cache state (size, buckets, key index, pool, minimum frequency)
unchanged; neither can fail (both are total functions). -/
theorem lookup_miss_no_side_effects (c : LFUCache K V) (k : K) (d : V)
    (h : contains c k = false) :
    get c k = ((default : V), c) ∧ getOrDefault c k d = (d, c) := by
  rcases hf : findA? c.keyToNode k with _ | idx
  · simp [get, getOrDefault, hf]
  · rw [contains, hf] at h
    simp at h

theorem lookup_miss_no_side_effects_witness :
    get (LFUCache.mkCache Nat Nat 2) 5 = (0, LFUCache.mkCache Nat Nat 2)
    ∧ getOrDefault (LFUCache.mkCache Nat Nat 2) 5 9 = (9, LFUCache.mkCache Nat Nat 2) :=
  lookup_miss_no_side_effects (LFUCache.mkCache Nat Nat 2) 5 9 (by decide)

/-- Claim C8. On a present key the three lookup variants return the same value
(the stored value, unchanged) and produce identical resulting cache states:
the frequency of the key's node is incremented by one and the node becomes
the head of the next-higher frequency bucket. -/
theorem lookup_hit_variants_agree (c : LFUCache K V) (k : K) (d : V) (idx : Nat)
    (h : findA? c.keyToNode k = some idx) (hlt : idx < c.nodePool.length) :
    getOrThrow c k = some (get c k)
    ∧ getOrDefault c k d = get c k
    ∧ (get c k).2 = updateFrequency c idx
    ∧ (get c k).1 = (getN c.nodePool idx).value
    ∧ (getN (get c k).2.nodePool idx).frequency = (getN c.nodePool idx).frequency + 1
    ∧ (∃ fl, findA? (get c k).2.frequencyToList
          ((getN c.nodePool idx).frequency + 1) = some fl ∧ fl.head = some idx) := by
  have h1 : get c k
      = ((getN (updateFrequency c idx).nodePool idx).value, updateFrequency c idx) := by
    simp [get, h]
  refine ⟨by simp [getOrThrow, h, get], by simp [getOrDefault, h, get], by rw [h1], ?_, ?_, ?_⟩
  · rw [h1]
    exact updateFrequency_value c idx idx
  · rw [h1]
    exact updateFrequency_freq_self c idx hlt
  · rw [h1]
    exact updateFrequency_newBucket_head c idx

theorem lookup_hit_variants_agree_witness :
    (fun c : LFUCache Nat Nat =>
      getOrThrow c 1 = some (get c 1)
      ∧ getOrDefault c 1 9 = get c 1
      ∧ (get c 1).2 = updateFrequency c 0
      ∧ (get c 1).1 = (getN c.nodePool 0).value
      ∧ (getN (get c 1).2.nodePool 0).frequency = (getN c.nodePool 0).frequency + 1
      ∧ (∃ fl, findA? (get c 1).2.frequencyToList
            ((getN c.nodePool 0).frequency + 1) = some fl ∧ fl.head = some 0))
      ((put (LFUCache.mkCache Nat Nat 2) 1 101).toOption.getD (LFUCache.mkCache Nat Nat 2)) :=
  lookup_hit_variants_agree _ 1 9 0 (by decide) (by decide)

/-- Claim C10. A live key whose stored value is the default-constructed value
cannot be distinguished from an absent key through `get` alone: both calls
return the default value (only `contains`/`getOrThrow` discriminate), yet
the side effects differ, the hit incrementing the key's frequency while the
miss leaves the state unchanged. -/
theorem get_default_value_indistinguishable_from_miss
    (c1 c2 : LFUCache K V) (k : K) (idx : Nat)
    (h1 : findA? c1.keyToNode k = some idx)
    (hv : (getN c1.nodePool idx).value = (default : V))
    (h2 : findA? c2.keyToNode k = none) :
    (get c1 k).1 = (get c2 k).1
    ∧ contains c1 k = true
    ∧ contains c2 k = false
    ∧ (get c2 k).2 = c2
    ∧ (getOrThrow c1 k).isSome = true
    ∧ getOrThrow c2 k = none
    ∧ (idx < c1.nodePool.length →
        (getN (get c1 k).2.nodePool idx).frequency
          = (getN c1.nodePool idx).frequency + 1) := by
  have hg : get c1 k
      = ((getN (updateFrequency c1 idx).nodePool idx).value, updateFrequency c1 idx) := by
    simp [get, h1]
  refine ⟨?_, by simp [contains, h1], by simp [contains, h2], by simp [get, h2],
    by simp [getOrThrow, h1], by simp [getOrThrow, h2], fun hlt => ?_⟩
  · rw [hg]
    show (getN (updateFrequency c1 idx).nodePool idx).value = (get c2 k).1
    rw [updateFrequency_value, hv]
    simp [get, h2]
  · rw [hg]
    exact updateFrequency_freq_self c1 idx hlt

theorem get_default_value_indistinguishable_from_miss_witness :
    (fun c1 c2 : LFUCache Nat Nat =>
      (get c1 3).1 = (get c2 3).1
      ∧ contains c1 3 = true
      ∧ contains c2 3 = false
      ∧ (get c2 3).2 = c2
      ∧ (getOrThrow c1 3).isSome = true
      ∧ getOrThrow c2 3 = none
      ∧ (0 < c1.nodePool.length →
          (getN (get c1 3).2.nodePool 0).frequency
            = (getN c1.nodePool 0).frequency + 1))
      ((put (LFUCache.mkCache Nat Nat 2) 3 0).toOption.getD (LFUCache.mkCache Nat Nat 2))
      (LFUCache.mkCache Nat Nat 2) :=
  get_default_value_indistinguishable_from_miss _ _ 3 0 (by decide) (by decide) (by decide)

end DirectClaims

section CounterexampleRuns

/-- Projection of a run result that succeeded. -/
def okState {K V : Type} : Except CErr (LFUCache K V) → Option (LFUCache K V)
  | .ok c => some c
  | .error _ => none

/-- The operation sequence (capacity 3) that reaches a corrupted state via
`clear`: after `put 1, clear, put 1`, the never-used cursor `poolSize_` is
`0` although slot 0 is live again, so `put 4` re-allocates the live slot 0;
`put 1` then bumps the shared slot to frequency 2 and `put 2` fills the
cache. -/
def c1Ops : List (Op Nat Nat) :=
  [.put 1 101, .clear, .put 1 101, .put 4 104, .put 1 101, .put 2 102]

/-- Claim C1. Refutation by execution: in the reachable state after `c1Ops` the
cache is at capacity (`size = capacity = 3`), key `999` is absent, key `4`
has frequency 2 and key `2` has frequency 1; yet `put 999` evicts key `4`
(frequency 2) while key `2` with the globally smallest frequency 1 stays —
the evicted entry is not an entry of minimum frequency, contradicting the
claimed eviction policy. -/
theorem put_at_capacity_evicts_higher_frequency_entry :
    ((okState (run (LFUCache.mkCache Nat Nat 3) c1Ops)).map fun c =>
        (size c, capacity c, contains c 999))
      = some (3, 3, false)
    ∧ ((okState (run (LFUCache.mkCache Nat Nat 3) c1Ops)).map fun c =>
        ((findA? c.keyToNode 4).map fun i => (getN c.nodePool i).frequency,
         (findA? c.keyToNode 2).map fun i => (getN c.nodePool i).frequency))
      = some (some 2, some 1)
    ∧ ((okState (run (LFUCache.mkCache Nat Nat 3) (c1Ops ++ [.put 999 0]))).map fun c =>
        (contains c 4, contains c 2, contains c 999, size c))
      = some (false, true, true, 3) := by decide

/-- Claim C3. Refutation by execution: after `put 1, clear, put 1, put 2` on a
capacity-2 cache, the two live keys `1` and `2` both reference pool slot 0
(the free-stack pop handed slot 0 to key 1, and the never-used cursor, reset
to 0 by `clear`, handed the same slot to key 2), so a slot is referenced by
two Key Index entries at once. -/
theorem clear_then_put_aliases_one_slot_to_two_keys :
    ((okState (run (LFUCache.mkCache Nat Nat 2)
        [Op.put 1 101, .clear, .put 1 101, .put 2 102])).map fun c =>
        (findA? c.keyToNode 1, findA? c.keyToNode 2, size c))
      = some (some 0, some 0, 2) := by decide

/-- Claim C5. Refutation by execution: after `put 1, clear, put 1, put 2, get 2`
on a capacity-3 cache, key `1` is live (`contains`) but reports frequency 2,
although since key 1's most recent insertion (`put 1`) there was no
successful `get` or `put` on key 1 at all — the claimed value is
1 + 0 = 1.  (Key 2 aliased key 1's pool slot, and `get 2` bumped the shared
frequency field.) -/
theorem live_key_frequency_not_one_plus_touches :
    ((okState (run (LFUCache.mkCache Nat Nat 3)
        [Op.put 1 101, .clear, .put 1 101, .put 2 102, .get 2])).map fun c =>
        (contains c 1,
         (findA? c.keyToNode 1).map fun i => (getN c.nodePool i).frequency))
      = some (true, some 2) := by decide

/-- Claim C9, counterexample: after this capacity-3 run the frequency-to-bucket
map still contains the entry for frequency 1, whose list has no node at all
(`head = tail = none`) although its size counter is 1 — an empty bucket is
present in the map after an operation. -/
theorem bucket_in_map_with_no_nodes :
    ((okState (run (LFUCache.mkCache Nat Nat 3)
        [Op.put 1 101, .clear, .put 1 101, .put 2 102, .put 1 101, .put 3 103,
         .put 1 101, .put 3 103])).map fun c =>
        (findA? c.frequencyToList 1).map fun fl => (fl.head, fl.tail, fl.size))
      = some (some (none, none, 1)) := by decide

end CounterexampleRuns

end LFU

namespace LFU

section MoreFieldLemmas

variable {K V : Type} [DecidableEq K] [Inhabited K] [Inhabited V]

theorem prev_setNext (pool : List (Node K V)) (i j : Nat) (q : Option Nat) :
    (getN (setNext pool i q) j).prev = (getN pool j).prev := by
  rw [getN_setNext]; split
  · rename_i h; rw [h.1]
  · rfl

theorem next_setPrev (pool : List (Node K V)) (i j : Nat) (p : Option Nat) :
    (getN (setPrev pool i p) j).next = (getN pool j).next := by
  rw [getN_setPrev]; split
  · rename_i h; rw [h.1]
  · rfl

theorem prev_setFreq (pool : List (Node K V)) (i j : Nat) (f : Int) :
    (getN (setFreq pool i f) j).prev = (getN pool j).prev := by
  rw [getN_setFreq]; split
  · rename_i h; rw [h.1]
  · rfl

theorem next_setFreq (pool : List (Node K V)) (i j : Nat) (f : Int) :
    (getN (setFreq pool i f) j).next = (getN pool j).next := by
  rw [getN_setFreq]; split
  · rename_i h; rw [h.1]
  · rfl

theorem prev_setValue (pool : List (Node K V)) (i j : Nat) (v : V) :
    (getN (setValue pool i v) j).prev = (getN pool j).prev := by
  rw [getN_setValue]; split
  · rename_i h; rw [h.1]
  · rfl

theorem next_setValue (pool : List (Node K V)) (i j : Nat) (v : V) :
    (getN (setValue pool i v) j).next = (getN pool j).next := by
  rw [getN_setValue]; split
  · rename_i h; rw [h.1]
  · rfl

theorem addToHead_tail (pool : List (Node K V)) (fl : FrequencyList) (idx : Nat) :
    (FrequencyList.addToHead pool fl idx).2.tail
      = (match fl.tail with | none => some idx | some t => some t) := rfl

theorem addToHead_size (pool : List (Node K V)) (fl : FrequencyList) (idx : Nat) :
    (FrequencyList.addToHead pool fl idx).2.size = fl.size + 1 := rfl

theorem removeNode_size (pool : List (Node K V)) (fl : FrequencyList) (idx : Nat) :
    (FrequencyList.removeNode pool fl idx).2.size = fl.size - 1 := rfl

theorem removeNode_head (pool : List (Node K V)) (fl : FrequencyList) (idx : Nat) :
    (FrequencyList.removeNode pool fl idx).2.head
      = (match (getN pool idx).prev with
         | some _ => fl.head
         | none => (getN pool idx).next) := by
  unfold FrequencyList.removeNode
  dsimp only
  split <;> rfl

theorem removeNode_tail (pool : List (Node K V)) (fl : FrequencyList) (idx : Nat) :
    (FrequencyList.removeNode pool fl idx).2.tail
      = (match (getN pool idx).next with
         | some _ => fl.tail
         | none => (getN pool idx).prev) := by
  unfold FrequencyList.removeNode
  dsimp only
  rcases h0 : (getN pool idx).prev with _ | p
  · rcases h1 : (getN pool idx).next with _ | q <;> simp [h0, h1]
  · have hnext : (getN (setNext pool p (getN pool idx).next) idx).next
        = (getN pool idx).next := by
      rw [getN_setNext]
      split
      · rename_i h; rw [h.1]
      · rfl
    have hprev : (getN (setNext pool p (getN pool idx).next) idx).prev
        = (getN pool idx).prev := prev_setNext _ _ _ _
    rcases h1 : (getN pool idx).next with _ | q <;>
      rw [h1] at hnext hprev <;>
      simp [hnext, hprev, h0, h1]

theorem findA?_some_mem {α β : Type} [DecidableEq α] (l : List (α × β)) (k : α) (v : β)
    (h : findA? l k = some v) : (k, v) ∈ l := by
  induction l with
  | nil => simp [findA?] at h
  | cons p l ih =>
    rw [findA?] at h
    by_cases hp : p.1 = k
    · rw [if_pos hp] at h
      have hv : p.2 = v := by injection h
      have : p = (k, v) := Prod.ext hp hv
      rw [← this]
      exact List.mem_cons_self _ _
    · rw [if_neg hp] at h
      exact List.mem_cons_of_mem _ (ih h)

end MoreFieldLemmas

section Invariant

variable {K V : Type} [DecidableEq K] [Inhabited K] [Inhabited V]

/-- Membership of an optional pool index (a possibly-null node pointer) in
the allocated ghost set. -/
def optIn (o : Option Nat) (A : Finset Nat) : Prop :=
  match o with
  | none => True
  | some i => i ∈ A

/-- The allocated-slot ghost set `A`: all slots currently owned by the cache
structure.  It avoids the live prefix of the free stack and stays in bounds;
every key-index entry and every bucket head/tail points into it; it is
closed under the intrusive `prev`/`next` links; every allocated slot's key
field is present in the key index, and distinct allocated slots hold
distinct keys. -/
def LinksIn (pool : List (Node K V)) (A : Finset Nat) : Prop :=
  ∀ j ∈ A, optIn (getN pool j).prev A ∧ optIn (getN pool j).next A

/-- The allocated-slot ghost set `A`: all slots currently owned by the cache
structure; closed under the intrusive links, each slot's key field live in
the key index, one slot per key. -/
structure SlotsOK (c : LFUCache K V) (A : Finset Nat) : Prop where
  bounds : ∀ i ∈ A, c.freeCount ≤ i ∧ i < c.maxSize
  mapRef : ∀ p ∈ c.keyToNode, p.2 ∈ A
  bucketRef : ∀ q ∈ c.frequencyToList, optIn q.2.head A ∧ optIn q.2.tail A
  keyLive : ∀ i ∈ A, (getN c.nodePool i).key ∈ keysOf c.keyToNode
  linksIn : LinksIn c.nodePool A
  keyInj : ∀ i ∈ A, ∀ j ∈ A, i ≠ j → (getN c.nodePool i).key ≠ (getN c.nodePool j).key

/-- The inductive invariant of reachable, non-crashed cache states.  It is
deliberately weaker than full well-formedness (which the `clear` bug makes
unreachable-state-dependent): it is preserved even through the slot-aliasing
corruption and suffices for `size() ≤ capacity()`, for the unreachability of
the pool-exhaustion branch, and for the absence of empty buckets (by size
counter) in the frequency map. -/
structure Inv (c : LFUCache K V) : Prop where
  poolLen : c.nodePool.length = c.maxSize
  freeLen : c.freeNodes.length = c.maxSize
  fcLe : c.freeCount ≤ c.maxSize
  psLe : c.poolSize ≤ c.maxSize
  stackIota : ∀ i < c.freeCount, c.freeNodes.getD i 0 = i
  fcPos : 0 < c.freeCount → c.poolSize = 0
  account : c.poolSize ≤ c.keyToNode.length + c.freeCount
  mapNodup : (keysOf c.keyToNode).Nodup
  bucketNodup : (keysOf c.frequencyToList).Nodup
  minFreqIn : c.keyToNode ≠ [] → (findA? c.frequencyToList c.minFrequency).isSome
  bucketPos : ∀ q ∈ c.frequencyToList, 1 ≤ q.2.size
  sizeLe : c.keyToNode.length ≤ c.maxSize
  ghost : ∃ A : Finset Nat, SlotsOK c A

theorem inv_mkCache (M : Nat) : Inv (LFUCache.mkCache K V M) := by
  refine ⟨by simp [LFUCache.mkCache], by simp [LFUCache.mkCache], by simp [LFUCache.mkCache],
    by simp [LFUCache.mkCache], ?_, ?_, by simp [LFUCache.mkCache], ?_, ?_, ?_, ?_,
    by simp [LFUCache.mkCache], ⟨∅, ?_, ?_, ?_, ?_, ?_, ?_⟩⟩ <;>
    simp [LFUCache.mkCache, keysOf, LinksIn]

theorem inv_clear (c : LFUCache K V) (hc : Inv c) : Inv (clear c) := by
  have hps : c.poolSize ≤ c.freeNodes.length := by rw [hc.freeLen]; exact hc.psLe
  have hlen : (clear c).freeNodes.length = c.maxSize := by
    unfold clear
    dsimp only
    split
    · rw [List.length_append, List.length_range, List.length_drop, hc.freeLen]
      have := hc.psLe
      omega
    · exact hc.freeLen
  refine ⟨hc.poolLen, hlen, by simpa [clear] using hc.psLe, by simp [clear], ?_, ?_,
    by simp [clear], by simp [clear, keysOf], by simp [clear, keysOf], by simp [clear],
    by simp [clear], by simp [clear], ⟨∅, ?_, ?_, ?_, ?_, ?_, ?_⟩⟩
  · intro i hi
    unfold clear at hi ⊢
    dsimp only at hi ⊢
    have hips : i < c.poolSize := hi
    rw [if_pos (Nat.lt_of_le_of_lt (Nat.zero_le _) hips)]
    rw [List.getD_eq_getElem?_getD, List.getElem?_append,
      if_pos (by rw [List.length_range]; exact hips), List.getElem?_range hips]
    rfl
  · intro _
    rfl
  all_goals simp [clear, optIn, LinksIn]

end Invariant

end LFU

namespace LFU

section LinkLemmas

variable {K V : Type} [DecidableEq K] [Inhabited K] [Inhabited V]

theorem linksIn_setPrev (pool : List (Node K V)) (A : Finset Nat) (i : Nat) (p : Option Nat)
    (hl : LinksIn pool A) (hp : optIn p A) : LinksIn (setPrev pool i p) A := by
  intro j hj
  rw [getN_setPrev]
  split
  · rename_i h
    exact ⟨hp, (hl i (by rw [h.1]; exact hj)).2⟩
  · exact hl j hj

theorem linksIn_setNext (pool : List (Node K V)) (A : Finset Nat) (i : Nat) (q : Option Nat)
    (hl : LinksIn pool A) (hq : optIn q A) : LinksIn (setNext pool i q) A := by
  intro j hj
  rw [getN_setNext]
  split
  · rename_i h
    exact ⟨(hl i (by rw [h.1]; exact hj)).1, hq⟩
  · exact hl j hj

theorem linksIn_of_eq {pool pool' : List (Node K V)} {A : Finset Nat}
    (hprev : ∀ j, (getN pool' j).prev = (getN pool j).prev)
    (hnext : ∀ j, (getN pool' j).next = (getN pool j).next)
    (hl : LinksIn pool A) : LinksIn pool' A := by
  intro j hj
  rw [hprev, hnext]
  exact hl j hj

theorem linksIn_setFreq (pool : List (Node K V)) (A : Finset Nat) (i : Nat) (f : Int)
    (hl : LinksIn pool A) : LinksIn (setFreq pool i f) A :=
  linksIn_of_eq (fun j => prev_setFreq pool i j f) (fun j => next_setFreq pool i j f) hl

theorem linksIn_setValue (pool : List (Node K V)) (A : Finset Nat) (i : Nat) (v : V)
    (hl : LinksIn pool A) : LinksIn (setValue pool i v) A :=
  linksIn_of_eq (fun j => prev_setValue pool i j v) (fun j => next_setValue pool i j v) hl

theorem linksIn_addToHead (pool : List (Node K V)) (fl : FrequencyList) (idx : Nat)
    (A : Finset Nat) (hl : LinksIn pool A) (hidx : idx ∈ A) (hh : optIn fl.head A) :
    LinksIn (FrequencyList.addToHead pool fl idx).1 A := by
  unfold FrequencyList.addToHead
  dsimp only
  rcases hfh : fl.head with _ | h
  · exact linksIn_setNext _ _ _ _ (linksIn_setPrev _ _ _ _ hl trivial) trivial
  · rw [hfh] at hh
    exact linksIn_setPrev _ _ _ _
      (linksIn_setNext _ _ _ _ (linksIn_setPrev _ _ _ _ hl trivial) hh) hidx

theorem linksIn_removeNode (pool : List (Node K V)) (fl : FrequencyList) (idx : Nat)
    (A : Finset Nat) (hl : LinksIn pool A) (hidx : idx ∈ A) :
    LinksIn (FrequencyList.removeNode pool fl idx).1 A := by
  have hprev0 := (hl idx hidx).1
  have hnext0 := (hl idx hidx).2
  unfold FrequencyList.removeNode
  dsimp only
  rcases h0 : (getN pool idx).prev with _ | p
  · dsimp only
    rcases h1 : (getN pool idx).next with _ | q
    · dsimp only
      exact linksIn_setNext _ _ _ _ (linksIn_setPrev _ _ _ _ hl trivial) trivial
    · dsimp only
      exact linksIn_setNext _ _ _ _
        (linksIn_setPrev _ _ _ _ (linksIn_setPrev _ _ _ _ hl hprev0) trivial) trivial
  · dsimp only
    rw [h0] at hprev0
    have hpA : p ∈ A := hprev0
    rcases h1 : (getN pool idx).next with _ | q
    · rw [h1] at hnext0
      have hni : (getN (setNext pool p none) idx).next = none := by
        rw [getN_setNext]
        split
        · rfl
        · exact h1
      rw [hni]
      dsimp only
      exact linksIn_setNext _ _ _ _
        (linksIn_setPrev _ _ _ _ (linksIn_setNext _ _ _ _ hl trivial) trivial) trivial
    · rw [h1] at hnext0
      have hqA : q ∈ A := hnext0
      have hni : (getN (setNext pool p (some q)) idx).next = some q := by
        rw [getN_setNext]
        split
        · rfl
        · exact h1
      have hpi : (getN (setNext pool p (some q)) idx).prev = some p := by
        rw [prev_setNext, h0]
      rw [hni]
      dsimp only
      rw [hpi]
      exact linksIn_setNext _ _ _ _
        (linksIn_setPrev _ _ _ _
          (linksIn_setPrev _ _ _ _ (linksIn_setNext _ _ _ _ hl hqA) hpA) trivial) trivial

theorem keyLive_of_keyEq {pool pool' : List (Node K V)} {A : Finset Nat}
    {m : List (K × Nat)}
    (hk : ∀ j, (getN pool' j).key = (getN pool j).key)
    (h : ∀ i ∈ A, (getN pool i).key ∈ keysOf m) :
    ∀ i ∈ A, (getN pool' i).key ∈ keysOf m := by
  intro i hi
  rw [hk]
  exact h i hi

theorem keyInj_of_keyEq {pool pool' : List (Node K V)} {A : Finset Nat}
    (hk : ∀ j, (getN pool' j).key = (getN pool j).key)
    (h : ∀ i ∈ A, ∀ j ∈ A, i ≠ j → (getN pool i).key ≠ (getN pool j).key) :
    ∀ i ∈ A, ∀ j ∈ A, i ≠ j → (getN pool' i).key ≠ (getN pool' j).key := by
  intro i hi j hj hne
  rw [hk, hk]
  exact h i hi j hj hne

end LinkLemmas

end LFU

namespace LFU

section UpdatePreservation

variable {K V : Type} [DecidableEq K] [Inhabited K] [Inhabited V]

/-- Common tail of `updateFrequency`: bump the frequency of slot `idx`, push
it at the head of the next bucket, and adjust the minimum frequency.  The
hypotheses describe the pool and bucket map left by the removal phase. -/
theorem inv_bump (c : LFUCache K V) (A : Finset Nat) (idx : Nat)
    (pool0 : List (Node K V)) (bs1 : List (Int × FrequencyList))
    (hc : Inv c) (hA : SlotsOK c A) (hidxA : idx ∈ A)
    (hlen0 : pool0.length = c.nodePool.length)
    (hkey0 : ∀ j, (getN pool0 j).key = (getN c.nodePool j).key)
    (hnodup1 : (keysOf bs1).Nodup)
    (hpos1 : ∀ q ∈ bs1, 1 ≤ q.2.size)
    (hbref1 : ∀ q ∈ bs1, optIn q.2.head A ∧ optIn q.2.tail A)
    (hlinks0 : LinksIn pool0 A)
    (hminf1 : (findA? bs1 c.minFrequency).isSome
        ∨ (getN c.nodePool idx).frequency = c.minFrequency) :
    Inv { c with
      nodePool := (FrequencyList.addToHead
          (setFreq pool0 idx ((getN c.nodePool idx).frequency + 1))
          ((findA? bs1 ((getN c.nodePool idx).frequency + 1)).getD FrequencyList.init)
          idx).1
      frequencyToList := insertA bs1 ((getN c.nodePool idx).frequency + 1)
          (FrequencyList.addToHead
            (setFreq pool0 idx ((getN c.nodePool idx).frequency + 1))
            ((findA? bs1 ((getN c.nodePool idx).frequency + 1)).getD FrequencyList.init)
            idx).2
      minFrequency :=
        if (getN c.nodePool idx).frequency = c.minFrequency
            ∧ findA? (insertA bs1 ((getN c.nodePool idx).frequency + 1)
                (FrequencyList.addToHead
                  (setFreq pool0 idx ((getN c.nodePool idx).frequency + 1))
                  ((findA? bs1 ((getN c.nodePool idx).frequency + 1)).getD FrequencyList.init)
                  idx).2) c.minFrequency = none
          then c.minFrequency + 1
          else c.minFrequency } := by
  have hkeysF : ∀ j,
      (getN (FrequencyList.addToHead
        (setFreq pool0 idx ((getN c.nodePool idx).frequency + 1))
        ((findA? bs1 ((getN c.nodePool idx).frequency + 1)).getD FrequencyList.init)
        idx).1 j).key = (getN c.nodePool j).key := by
    intro j
    rw [addToHead_key, key_setFreq, hkey0]
  refine ⟨?_, hc.freeLen, hc.fcLe, hc.psLe, hc.stackIota, hc.fcPos, hc.account,
    hc.mapNodup, ?_, ?_, ?_, hc.sizeLe, ?_⟩
  · show (FrequencyList.addToHead _ _ _).1.length = c.maxSize
    rw [addToHead_length, length_setFreq, hlen0, hc.poolLen]
  · exact keysOf_nodup_insertA _ _ _ hnodup1
  · intro _
    show (findA? _ (if _ then _ else _)).isSome
    by_cases hcond : (getN c.nodePool idx).frequency = c.minFrequency
        ∧ findA? (insertA bs1 ((getN c.nodePool idx).frequency + 1)
            (FrequencyList.addToHead
              (setFreq pool0 idx ((getN c.nodePool idx).frequency + 1))
              ((findA? bs1 ((getN c.nodePool idx).frequency + 1)).getD FrequencyList.init)
              idx).2) c.minFrequency = none
    · rw [if_pos hcond]
      have he : c.minFrequency + 1 = (getN c.nodePool idx).frequency + 1 := by
        rw [hcond.1]
      rw [he, findA?_insertA_self]
      rfl
    · rw [if_neg hcond]
      rcases Decidable.not_and_iff_or_not.1 hcond with hof | hfound
      · rcases hminf1 with hs | he
        · by_cases hnf : (getN c.nodePool idx).frequency + 1 = c.minFrequency
          · rw [hnf] at *
            rw [findA?_insertA_self]
            rfl
          · rw [findA?_insertA_ne _ _ _ _ hnf]
            exact hs
        · exact absurd he hof
      · rcases ho : findA? (insertA bs1 ((getN c.nodePool idx).frequency + 1)
            (FrequencyList.addToHead
              (setFreq pool0 idx ((getN c.nodePool idx).frequency + 1))
              ((findA? bs1 ((getN c.nodePool idx).frequency + 1)).getD FrequencyList.init)
              idx).2) c.minFrequency with _ | v
        · exact absurd ho hfound
        · rfl
  · intro q hq
    rcases mem_insertA _ _ _ _ hq with h1 | h1
    · rw [h1]
      dsimp only
      rw [addToHead_size]
      rcases hcur : findA? bs1 ((getN c.nodePool idx).frequency + 1) with _ | flc
      · show (1 : Int) ≤ FrequencyList.init.size + 1
        norm_num [FrequencyList.init]
      · have := hpos1 _ (findA?_some_mem _ _ _ hcur)
        dsimp only at this
        show (1 : Int) ≤ flc.size + 1
        omega
    · exact hpos1 q h1
  · refine ⟨A, hA.bounds, hA.mapRef, ?_, keyLive_of_keyEq hkeysF hA.keyLive,
      ?_, keyInj_of_keyEq hkeysF hA.keyInj⟩
    · intro q hq
      rcases mem_insertA _ _ _ _ hq with h1 | h1
      · rw [h1]
        dsimp only
        constructor
        · rw [addToHead_head]
          exact hidxA
        · rw [addToHead_tail]
          rcases hcur : findA? bs1 ((getN c.nodePool idx).frequency + 1) with _ | flc
          · show optIn (match FrequencyList.init.tail with
              | none => some idx | some t => some t) A
            exact hidxA
          · have hb := (hbref1 _ (findA?_some_mem _ _ _ hcur)).2
            dsimp only at hb
            show optIn (match flc.tail with
              | none => some idx | some t => some t) A
            rcases hct : flc.tail with _ | t
            · exact hidxA
            · rw [hct] at hb
              exact hb
      · exact hbref1 q h1
    · refine linksIn_addToHead _ _ _ _ (linksIn_setFreq _ _ _ _ hlinks0) hidxA ?_
      rcases hcur : findA? bs1 ((getN c.nodePool idx).frequency + 1) with _ | flc
      · exact trivial
      · have hb := (hbref1 _ (findA?_some_mem _ _ _ hcur)).1
        dsimp only at hb
        exact hb

end UpdatePreservation

end LFU

namespace LFU

section UpdateInv

variable {K V : Type} [DecidableEq K] [Inhabited K] [Inhabited V]

theorem inv_updateFrequency (c : LFUCache K V) (k : K) (idx : Nat)
    (hc : Inv c) (hf : findA? c.keyToNode k = some idx) :
    Inv (updateFrequency c idx) := by
  obtain ⟨A, hA⟩ := hc.ghost
  have hidxA : idx ∈ A := hA.mapRef (k, idx) (findA?_some_mem _ _ _ hf)
  have hmapne : c.keyToNode ≠ [] := by
    intro h
    rw [h] at hf
    simp [findA?] at hf
  unfold updateFrequency
  dsimp only
  rcases hfind : findA? c.frequencyToList (getN c.nodePool idx).frequency with _ | fl
  · dsimp only
    exact inv_bump c A idx c.nodePool c.frequencyToList hc hA hidxA rfl (fun _ => rfl)
      hc.bucketNodup hc.bucketPos hA.bucketRef hA.linksIn (Or.inl (hc.minFreqIn hmapne))
  · dsimp only
    have hflmem : ((getN c.nodePool idx).frequency, fl) ∈ c.frequencyToList :=
      findA?_some_mem _ _ _ hfind
    have hbref : optIn fl.head A ∧ optIn fl.tail A := hA.bucketRef _ hflmem
    have hbrefR : optIn (FrequencyList.removeNode c.nodePool fl idx).2.head A
        ∧ optIn (FrequencyList.removeNode c.nodePool fl idx).2.tail A := by
      constructor
      · rw [removeNode_head]
        rcases hp : (getN c.nodePool idx).prev with _ | p
        · exact (hA.linksIn idx hidxA).2
        · exact hbref.1
      · rw [removeNode_tail]
        rcases hq2 : (getN c.nodePool idx).next with _ | q
        · exact (hA.linksIn idx hidxA).1
        · exact hbref.2
    by_cases hsz : (FrequencyList.removeNode c.nodePool fl idx).2.size = 0
    · rw [if_pos hsz]
      dsimp only
      refine inv_bump c A idx _ _ hc hA hidxA (removeNode_length _ _ _)
        (fun j => removeNode_key _ _ _ j) (keysOf_nodup_eraseA _ _ hc.bucketNodup)
        (fun q hq => hc.bucketPos q (mem_eraseA _ _ _ hq))
        (fun q hq => hA.bucketRef q (mem_eraseA _ _ _ hq))
        (linksIn_removeNode _ _ _ _ hA.linksIn hidxA) ?_
      by_cases hof : (getN c.nodePool idx).frequency = c.minFrequency
      · exact Or.inr hof
      · left
        rw [findA?_eraseA_ne _ _ _ hof]
        exact hc.minFreqIn hmapne
    · rw [if_neg hsz]
      dsimp only
      refine inv_bump c A idx _ _ hc hA hidxA (removeNode_length _ _ _)
        (fun j => removeNode_key _ _ _ j) (keysOf_nodup_insertA _ _ _ hc.bucketNodup)
        ?_ ?_ (linksIn_removeNode _ _ _ _ hA.linksIn hidxA) ?_
      · intro q hq
        rcases mem_insertA _ _ _ _ hq with h1 | h1
        · rw [h1]
          dsimp only
          rw [removeNode_size]
          have hfs := hc.bucketPos _ hflmem
          dsimp only at hfs
          have hne : fl.size - 1 ≠ 0 := by
            rw [← removeNode_size c.nodePool fl idx]
            exact hsz
          omega
        · exact hc.bucketPos q h1
      · intro q hq
        rcases mem_insertA _ _ _ _ hq with h1 | h1
        · rw [h1]
          exact hbrefR
        · exact hA.bucketRef q h1
      · by_cases hof : (getN c.nodePool idx).frequency = c.minFrequency
        · exact Or.inr hof
        · left
          rw [findA?_insertA_ne _ _ _ _ hof]
          exact hc.minFreqIn hmapne

end UpdateInv

end LFU

namespace LFU

section PutHelpers

variable {K V : Type} [DecidableEq K] [Inhabited K] [Inhabited V]

theorem optIn_mono {A B : Finset Nat} (h : A ⊆ B) {o : Option Nat}
    (ho : optIn o A) : optIn o B := by
  cases o with
  | none => trivial
  | some i => exact h ho

theorem mem_keysOf_insertA_self {α β : Type} [DecidableEq α]
    (l : List (α × β)) (k : α) (v : β) : k ∈ keysOf (insertA l k v) := by
  induction l with
  | nil => simp [insertA, keysOf]
  | cons p l ih =>
    by_cases hp : p.1 = k
    · simp [insertA, if_pos hp, keysOf]
    · simp only [insertA, if_neg hp, keysOf, List.map_cons, List.mem_cons]
      exact Or.inr ih

theorem mem_keysOf_insertA_of_mem {α β : Type} [DecidableEq α]
    (l : List (α × β)) (k x : α) (v : β) (h : x ∈ keysOf l) :
    x ∈ keysOf (insertA l k v) := by
  induction l with
  | nil => simp [keysOf] at h
  | cons p l ih =>
    simp only [keysOf, List.map_cons, List.mem_cons] at h
    by_cases hp : p.1 = k
    · simp only [insertA, if_pos hp, keysOf, List.map_cons, List.mem_cons]
      rcases h with h | h
      · exact Or.inl (by rw [h, hp])
      · exact Or.inr h
    · simp only [insertA, if_neg hp, keysOf, List.map_cons, List.mem_cons]
      rcases h with h | h
      · exact Or.inl h
      · exact Or.inr (ih h)

theorem mem_keysOf_eraseA_of_ne {α β : Type} [DecidableEq α]
    (l : List (α × β)) (e x : α) (hx : x ∈ keysOf l) (hne : x ≠ e) :
    x ∈ keysOf (eraseA l e) := by
  induction l with
  | nil => simp [keysOf] at hx
  | cons p l ih =>
    simp only [keysOf, List.map_cons, List.mem_cons] at hx
    by_cases hp : p.1 = e
    · simp only [eraseA, if_pos hp]
      rcases hx with h | h
      · exact absurd (by rw [h, hp]) hne
      · exact h
    · simp only [eraseA, if_neg hp, keysOf, List.map_cons, List.mem_cons]
      rcases hx with h | h
      · exact Or.inl h
      · exact Or.inr (ih h)

theorem findA?_eraseA_none {α β : Type} [DecidableEq α]
    (l : List (α × β)) (e k : α) (h : findA? l k = none) :
    findA? (eraseA l e) k = none := by
  rcases hw : findA? (eraseA l e) k with _ | w
  · rfl
  · have hm : (k, w) ∈ l := mem_eraseA _ _ _ (findA?_some_mem _ _ _ hw)
    have := findA?_isSome_of_mem l (k, w) hm
    rw [h] at this
    simp at this

theorem getDN_set (l : List Nat) (i j x : Nat) :
    (l.set i x).getD j 0 = if i = j ∧ i < l.length then x else l.getD j 0 := by
  induction l generalizing i j with
  | nil => simp [List.set]
  | cons a l ih =>
    cases i with
    | zero =>
      cases j with
      | zero => simp
      | succ j' => simp [List.set]
    | succ i' =>
      cases j with
      | zero => simp [List.set]
      | succ j' =>
        have := ih i' j'
        simp only [List.set, List.getD_cons_succ]
        rw [this]
        by_cases hij : i' = j' <;> simp [hij, Nat.succ_lt_succ_iff]

theorem linksIn_set_fresh (pool : List (Node K V)) (A : Finset Nat) (nidx : Nat)
    (n0 : Node K V) (hp : n0.prev = none) (hq : n0.next = none)
    (hl : LinksIn pool A) :
    LinksIn (pool.set nidx n0) (insert nidx A) := by
  intro j hj
  rw [getN_set]
  split
  · rw [hp, hq]
    exact ⟨trivial, trivial⟩
  · rename_i h
    rcases Finset.mem_insert.1 hj with hj1 | hj1
    · subst hj1
      have hnb : pool.length ≤ j := by
        by_contra hlt
        exact h ⟨rfl, Nat.lt_of_not_le hlt⟩
      have hd : getN pool j = (default : Node K V) := by
        unfold getN
        rw [List.get?_eq_none.2 hnb]
        rfl
      rw [hd]
      exact ⟨trivial, trivial⟩
    · exact ⟨optIn_mono (Finset.subset_insert _ _) (hl j hj1).1,
        optIn_mono (Finset.subset_insert _ _) (hl j hj1).2⟩

end PutHelpers

end LFU

namespace LFU

section InsertPreservation

variable {K V : Type} [DecidableEq K] [Inhabited K] [Inhabited V]

theorem inv_setValue (c : LFUCache K V) (idx : Nat) (v : V) (hc : Inv c) :
    Inv { c with nodePool := setValue c.nodePool idx v } := by
  obtain ⟨A, hA⟩ := hc.ghost
  refine ⟨?_, hc.freeLen, hc.fcLe, hc.psLe, hc.stackIota, hc.fcPos, hc.account, hc.mapNodup,
    hc.bucketNodup, hc.minFreqIn, hc.bucketPos, hc.sizeLe,
    ⟨A, hA.bounds, hA.mapRef, hA.bucketRef,
      keyLive_of_keyEq (fun j => key_setValue _ _ _ _) hA.keyLive,
      linksIn_setValue _ _ _ _ hA.linksIn,
      keyInj_of_keyEq (fun j => key_setValue _ _ _ _) hA.keyInj⟩⟩
  show (setValue c.nodePool idx v).length = c.maxSize
  rw [length_setValue, hc.poolLen]

/-- Common tail of `put`'s new-key path: insert the freshly allocated node
(slot `nidx`, key field `k`, null links) into the key index and at the head
of bucket 1, and set the minimum frequency to 1. -/
theorem inv_insertNew (c4 : LFUCache K V) (k : K) (nidx : Nat) (A : Finset Nat)
    (hpoolLen : c4.nodePool.length = c4.maxSize)
    (hfreeLen : c4.freeNodes.length = c4.maxSize)
    (hfcLe : c4.freeCount ≤ c4.maxSize)
    (hpsLe : c4.poolSize ≤ c4.maxSize)
    (hstack : ∀ i < c4.freeCount, c4.freeNodes.getD i 0 = i)
    (hfcPos : 0 < c4.freeCount → c4.poolSize = 0)
    (hacct : c4.poolSize ≤ (insertA c4.keyToNode k nidx).length + c4.freeCount)
    (hmnd : (keysOf c4.keyToNode).Nodup)
    (hknotin : findA? c4.keyToNode k = none)
    (hbnd : (keysOf c4.frequencyToList).Nodup)
    (hbpos : ∀ q ∈ c4.frequencyToList, 1 ≤ q.2.size)
    (hsize : (insertA c4.keyToNode k nidx).length ≤ c4.maxSize)
    (hbounds : ∀ i ∈ A, c4.freeCount ≤ i ∧ i < c4.maxSize)
    (hmapRef : ∀ p ∈ c4.keyToNode, p.2 ∈ A)
    (hbref : ∀ q ∈ c4.frequencyToList, optIn q.2.head A ∧ optIn q.2.tail A)
    (hkeyLive : ∀ i ∈ A, i ≠ nidx → (getN c4.nodePool i).key ∈ keysOf c4.keyToNode)
    (hlinks : LinksIn c4.nodePool A)
    (hkeyInj : ∀ i ∈ A, ∀ j ∈ A, i ≠ j →
        (getN c4.nodePool i).key ≠ (getN c4.nodePool j).key)
    (hnidxA : nidx ∈ A)
    (hnkey : (getN c4.nodePool nidx).key = k) :
    Inv { c4 with
      keyToNode := insertA c4.keyToNode k nidx
      nodePool := (FrequencyList.addToHead c4.nodePool
          ((findA? c4.frequencyToList 1).getD FrequencyList.init) nidx).1
      frequencyToList := insertA c4.frequencyToList 1
          (FrequencyList.addToHead c4.nodePool
            ((findA? c4.frequencyToList 1).getD FrequencyList.init) nidx).2
      minFrequency := 1 } := by
  have hkeysF : ∀ j,
      (getN (FrequencyList.addToHead c4.nodePool
        ((findA? c4.frequencyToList 1).getD FrequencyList.init) nidx).1 j).key
      = (getN c4.nodePool j).key := fun j => addToHead_key _ _ _ _
  refine ⟨?_, hfreeLen, hfcLe, hpsLe, hstack, hfcPos, hacct,
    keysOf_nodup_insertA _ _ _ hmnd, keysOf_nodup_insertA _ _ _ hbnd, ?_, ?_, hsize,
    ⟨A, hbounds, ?_, ?_, ?_, ?_, keyInj_of_keyEq hkeysF hkeyInj⟩⟩
  · show (FrequencyList.addToHead _ _ _).1.length = c4.maxSize
    rw [addToHead_length, hpoolLen]
  · intro _
    show (findA? (insertA c4.frequencyToList 1 _) 1).isSome
    rw [findA?_insertA_self]
    rfl
  · intro q hq
    rcases mem_insertA _ _ _ _ hq with h1 | h1
    · rw [h1]
      dsimp only
      rw [addToHead_size]
      rcases hcur : findA? c4.frequencyToList 1 with _ | flc
      · show (1 : Int) ≤ FrequencyList.init.size + 1
        norm_num [FrequencyList.init]
      · have := hbpos _ (findA?_some_mem _ _ _ hcur)
        dsimp only at this
        show (1 : Int) ≤ flc.size + 1
        omega
    · exact hbpos q h1
  · intro p hp
    rcases mem_insertA _ _ _ _ hp with h1 | h1
    · rw [h1]
      exact hnidxA
    · exact hmapRef p h1
  · intro q hq
    rcases mem_insertA _ _ _ _ hq with h1 | h1
    · rw [h1]
      dsimp only
      constructor
      · rw [addToHead_head]
        exact hnidxA
      · rw [addToHead_tail]
        rcases hcur : findA? c4.frequencyToList 1 with _ | flc
        · show optIn (match FrequencyList.init.tail with
            | none => some nidx | some t => some t) A
          exact hnidxA
        · have hb := (hbref _ (findA?_some_mem _ _ _ hcur)).2
          dsimp only at hb
          show optIn (match flc.tail with
            | none => some nidx | some t => some t) A
          rcases hct : flc.tail with _ | t
          · exact hnidxA
          · rw [hct] at hb
            exact hb
    · exact hbref q h1
  · intro i hi
    rw [hkeysF]
    by_cases hin : i = nidx
    · rw [hin, hnkey]
      exact mem_keysOf_insertA_self _ _ _
    · exact mem_keysOf_insertA_of_mem _ _ _ _ (hkeyLive i hi hin)
  · refine linksIn_addToHead _ _ _ _ hlinks hnidxA ?_
    rcases hcur : findA? c4.frequencyToList 1 with _ | flc
    · exact trivial
    · have hb := (hbref _ (findA?_some_mem _ _ _ hcur)).1
      dsimp only at hb
      exact hb

end InsertPreservation

end LFU

namespace LFU

section PutInv

variable {K V : Type} [DecidableEq K] [Inhabited K] [Inhabited V]

theorem keyLive_set_fresh (pool : List (Node K V)) (A : Finset Nat) (nidx : Nat)
    (nd : Node K V) (m : List (K × Nat))
    (hmem : ∀ i ∈ A, i ≠ nidx → (getN pool i).key ∈ keysOf m) :
    ∀ i ∈ insert nidx A, i ≠ nidx → (getN (pool.set nidx nd) i).key ∈ keysOf m := by
  intro i hi hine
  have hiA : i ∈ A := by
    rcases Finset.mem_insert.1 hi with h1 | h1
    · exact absurd h1 hine
    · exact h1
  rw [getN_set, if_neg (fun hcon => hine hcon.1.symm)]
  exact hmem i hiA hine

theorem keyInj_set_fresh (pool : List (Node K V)) (A : Finset Nat) (nidx : Nat)
    (nd : Node K V) (m : List (K × Nat))
    (hmem : ∀ i ∈ A, i ≠ nidx → (getN pool i).key ∈ keysOf m)
    (hinj : ∀ i ∈ A, ∀ j ∈ A, i ≠ j → (getN pool i).key ≠ (getN pool j).key)
    (hknot : nd.key ∉ keysOf m) (hlt : nidx < pool.length) :
    ∀ i ∈ insert nidx A, ∀ j ∈ insert nidx A, i ≠ j →
      (getN (pool.set nidx nd) i).key ≠ (getN (pool.set nidx nd) j).key := by
  intro i hi j hj hij
  have hself : (getN (pool.set nidx nd) nidx).key = nd.key := by
    rw [getN_set, if_pos ⟨rfl, hlt⟩]
  have hother : ∀ x ∈ A, x ≠ nidx → (getN (pool.set nidx nd) x).key = (getN pool x).key := by
    intro x hx hxne
    rw [getN_set, if_neg (fun hcon => hxne hcon.1.symm)]
  by_cases hi0 : i = nidx
  · have hj0 : j ≠ nidx := fun he => hij (hi0.trans he.symm)
    have hjA : j ∈ A := by
      rcases Finset.mem_insert.1 hj with h1 | h1
      · exact absurd h1 hj0
      · exact h1
    rw [hi0, hself, hother j hjA hj0]
    exact fun he => hknot (he ▸ hmem j hjA hj0)
  · have hiA : i ∈ A := by
      rcases Finset.mem_insert.1 hi with h1 | h1
      · exact absurd h1 hi0
      · exact h1
    by_cases hj0 : j = nidx
    · rw [hj0, hself, hother i hiA hi0]
      exact fun he => hknot (he.symm ▸ hmem i hiA hi0)
    · have hjA : j ∈ A := by
        rcases Finset.mem_insert.1 hj with h1 | h1
        · exact absurd h1 hj0
        · exact h1
      rw [hother i hiA hi0, hother j hjA hj0]
      exact hinj i hiA j hjA hij

theorem inv_put_aux (c : LFUCache K V) (k : K) (v : V) (c' : LFUCache K V)
    (hc : Inv c) (hput : put c k v = .ok c') :
    Inv c' ∧ c'.maxSize = c.maxSize := by
  unfold put at hput
  rcases hfk : findA? c.keyToNode k with _ | idx
  · rw [hfk] at hput
    dsimp only at hput
    obtain ⟨A, hA⟩ := hc.ghost
    have hknotmem : k ∉ keysOf c.keyToNode := by
      rw [mem_keysOf_iff_findA?, hfk]
      simp
    by_cases hcap : c.maxSize ≤ c.keyToNode.length
    · rw [if_pos hcap] at hput
      rcases hbf : findA? c.frequencyToList c.minFrequency with _ | fl
      · rw [hbf] at hput
        dsimp only at hput
        rcases hmap : c.keyToNode with _ | ⟨p0, m0⟩
        · have hM0 : c.maxSize = 0 := by
            rw [hmap] at hcap
            simpa using hcap
          have hfc0 : c.freeCount = 0 := by
            have := hc.fcLe
            omega
          unfold allocateNode at hput
          rw [if_neg (by omega), if_pos (by omega)] at hput
          exact absurd hput (by simp)
        · have hne : c.keyToNode ≠ [] := by
            rw [hmap]
            simp
          have hms := hc.minFreqIn hne
          rw [hbf] at hms
          simp at hms
      · rw [hbf] at hput
        dsimp only at hput
        have hflmem := findA?_some_mem _ _ _ hbf
        have hflpos := hc.bucketPos _ hflmem
        dsimp only at hflpos
        by_cases hflz : fl.size = 0
        · exact absurd hflpos (by omega)
        · rw [if_neg hflz] at hput
          rcases htl : fl.tail with _ | lru
          · rw [htl] at hput
            dsimp only at hput
            exact absurd hput (by simp)
          · rw [htl] at hput
            dsimp only at hput
            have hlruA : lru ∈ A := by
              have hbt := (hA.bucketRef _ hflmem).2
              rw [htl] at hbt
              exact hbt
            obtain ⟨hlruFc, hlruM⟩ := hA.bounds lru hlruA
            have hfcM : c.freeCount < c.maxSize := Nat.lt_of_le_of_lt hlruFc hlruM
            unfold deallocateNode at hput
            dsimp only at hput
            rw [if_pos hfcM] at hput
            dsimp only at hput
            have hpidx : (c.freeNodes.set c.freeCount lru).getD (c.freeCount + 1 - 1) 0
                = lru := by
              have h1 : c.freeCount + 1 - 1 = c.freeCount := rfl
              rw [h1, getDN_set, if_pos ⟨rfl, by rw [hc.freeLen]; exact hfcM⟩]
            -- shared facts about the evicted key
            have hevKey : (getN (FrequencyList.removeNode c.nodePool fl lru).1 lru).key
                = (getN c.nodePool lru).key := removeNode_key _ _ _ _
            have hevMem : (getN c.nodePool lru).key ∈ keysOf c.keyToNode :=
              hA.keyLive lru hlruA
            have hevFound : (findA? c.keyToNode (getN c.nodePool lru).key).isSome :=
              (mem_keysOf_iff_findA? _ _).1 hevMem
            have hlenE : (eraseA c.keyToNode
                (getN (FrequencyList.removeNode c.nodePool fl lru).1 lru).key).length + 1
                = c.keyToNode.length := by
              rw [hevKey]
              exact length_eraseA_of_found _ _ hevFound
            have hkabs : findA? (eraseA c.keyToNode
                (getN (FrequencyList.removeNode c.nodePool fl lru).1 lru).key) k = none :=
              findA?_eraseA_none _ _ _ hfk
            have hkeyerased : ∀ i ∈ A, i ≠ lru →
                (getN (FrequencyList.removeNode c.nodePool fl lru).1 i).key
                  ∈ keysOf (eraseA c.keyToNode
                    (getN (FrequencyList.removeNode c.nodePool fl lru).1 lru).key) := by
              intro i hi hine
              simp only [removeNode_key]
              exact mem_keysOf_eraseA_of_ne _ _ _ (hA.keyLive i hi)
                (hA.keyInj i hi lru hlruA hine)
            have hknot2 : k ∉ keysOf (eraseA c.keyToNode
                (getN (FrequencyList.removeNode c.nodePool fl lru).1 lru).key) := by
              intro hk2
              rcases List.mem_map.1 hk2 with ⟨p, hp, hpe⟩
              exact hknotmem (hpe ▸ List.mem_map_of_mem Prod.fst (mem_eraseA _ _ _ hp))
            have hinj2 : ∀ i ∈ A, ∀ j ∈ A, i ≠ j →
                (getN (FrequencyList.removeNode c.nodePool fl lru).1 i).key
                  ≠ (getN (FrequencyList.removeNode c.nodePool fl lru).1 j).key :=
              keyInj_of_keyEq (fun j => removeNode_key _ _ _ j) hA.keyInj
            have hlruLen : lru < (FrequencyList.removeNode c.nodePool fl lru).1.length := by
              rw [removeNode_length, hc.poolLen]
              exact hlruM
            have hbrefR : optIn (FrequencyList.removeNode c.nodePool fl lru).2.head A
                ∧ optIn (FrequencyList.removeNode c.nodePool fl lru).2.tail A := by
              constructor
              · rw [removeNode_head]
                rcases hp : (getN c.nodePool lru).prev with _ | p
                · exact (hA.linksIn lru hlruA).2
                · exact (hA.bucketRef _ hflmem).1
              · rw [removeNode_tail]
                rcases hq2 : (getN c.nodePool lru).next with _ | q
                · exact (hA.linksIn lru hlruA).1
                · exact (hA.bucketRef _ hflmem).2
            by_cases hprz : (FrequencyList.removeNode c.nodePool fl lru).2.size = 0
            · rw [if_pos hprz] at hput
              dsimp only at hput
              unfold allocateNode at hput
              dsimp only at hput
              rw [if_pos (by omega)] at hput
              dsimp only at hput
              rw [hpidx] at hput
              simp only [Nat.add_sub_cancel] at hput
              injection hput with hce
              refine ⟨?_, by rw [← hce]⟩
              rw [← hce]
              refine inv_insertNew
                { c with nodePool := ((FrequencyList.removeNode c.nodePool fl lru).1).set lru
                           { frequency := 1, prev := none, next := none, key := k, value := v },
                         keyToNode := eraseA c.keyToNode
                           (getN (FrequencyList.removeNode c.nodePool fl lru).1 lru).key,
                         freeNodes := c.freeNodes.set c.freeCount lru,
                         freeCount := c.freeCount,
                         frequencyToList := eraseA c.frequencyToList c.minFrequency }
                k lru (insert lru A)
                ?_ ?_ ?_ ?_ ?_ ?_ ?_ ?_ ?_ ?_ ?_ ?_ ?_ ?_ ?_ ?_ ?_ ?_ ?_ ?_
              all_goals (try dsimp only)
              · rw [List.length_set, removeNode_length, hc.poolLen]
              · rw [List.length_set]
                exact hc.freeLen
              · exact hc.fcLe
              · exact hc.psLe
              · intro i hi
                rw [getDN_set, if_neg (fun hcon => absurd hcon.1 (by omega))]
                exact hc.stackIota i hi
              · exact hc.fcPos
              · rw [length_insertA_of_not_found _ _ _ hkabs]
                have := hc.account
                omega
              · exact keysOf_nodup_eraseA _ _ hc.mapNodup
              · exact hkabs
              · exact keysOf_nodup_eraseA _ _ hc.bucketNodup
              · intro q hq
                exact hc.bucketPos q (mem_eraseA _ _ _ hq)
              · rw [length_insertA_of_not_found _ _ _ hkabs]
                have := hc.sizeLe
                omega
              · intro i hi
                rcases Finset.mem_insert.1 hi with h1 | h1
                · exact ⟨by omega, by rw [h1]; exact hlruM⟩
                · exact hA.bounds i h1
              · intro p hp
                exact Finset.mem_insert_of_mem (hA.mapRef p (mem_eraseA _ _ _ hp))
              · intro q hq
                have hq2 := hA.bucketRef q (mem_eraseA _ _ _ hq)
                exact ⟨optIn_mono (Finset.subset_insert _ _) hq2.1,
                  optIn_mono (Finset.subset_insert _ _) hq2.2⟩
              · exact keyLive_set_fresh _ _ _ _ _ hkeyerased
              · exact linksIn_set_fresh _ _ _ _ rfl rfl
                  (linksIn_removeNode _ _ _ _ hA.linksIn hlruA)
              · exact keyInj_set_fresh _ _ _ _ _ hkeyerased hinj2 hknot2 hlruLen
              · exact Finset.mem_insert_self _ _
              · rw [getN_set, if_pos ⟨rfl, hlruLen⟩]
            · rw [if_neg hprz] at hput
              dsimp only at hput
              unfold allocateNode at hput
              dsimp only at hput
              rw [if_pos (by omega)] at hput
              dsimp only at hput
              rw [hpidx] at hput
              simp only [Nat.add_sub_cancel] at hput
              injection hput with hce
              refine ⟨?_, by rw [← hce]⟩
              rw [← hce]
              refine inv_insertNew
                { c with nodePool := ((FrequencyList.removeNode c.nodePool fl lru).1).set lru
                           { frequency := 1, prev := none, next := none, key := k, value := v },
                         keyToNode := eraseA c.keyToNode
                           (getN (FrequencyList.removeNode c.nodePool fl lru).1 lru).key,
                         freeNodes := c.freeNodes.set c.freeCount lru,
                         freeCount := c.freeCount,
                         frequencyToList := insertA c.frequencyToList c.minFrequency
                           (FrequencyList.removeNode c.nodePool fl lru).2 }
                k lru (insert lru A)
                ?_ ?_ ?_ ?_ ?_ ?_ ?_ ?_ ?_ ?_ ?_ ?_ ?_ ?_ ?_ ?_ ?_ ?_ ?_ ?_
              all_goals (try dsimp only)
              · rw [List.length_set, removeNode_length, hc.poolLen]
              · rw [List.length_set]
                exact hc.freeLen
              · exact hc.fcLe
              · exact hc.psLe
              · intro i hi
                rw [getDN_set, if_neg (fun hcon => absurd hcon.1 (by omega))]
                exact hc.stackIota i hi
              · exact hc.fcPos
              · rw [length_insertA_of_not_found _ _ _ hkabs]
                have := hc.account
                omega
              · exact keysOf_nodup_eraseA _ _ hc.mapNodup
              · exact hkabs
              · exact keysOf_nodup_insertA _ _ _ hc.bucketNodup
              · intro q hq
                rcases mem_insertA _ _ _ _ hq with h1 | h1
                · rw [h1]
                  dsimp only
                  rw [removeNode_size]
                  have hne2 : fl.size - 1 ≠ 0 := by
                    rw [← removeNode_size c.nodePool fl lru]
                    exact hprz
                  omega
                · exact hc.bucketPos q h1
              · rw [length_insertA_of_not_found _ _ _ hkabs]
                have := hc.sizeLe
                omega
              · intro i hi
                rcases Finset.mem_insert.1 hi with h1 | h1
                · exact ⟨by omega, by rw [h1]; exact hlruM⟩
                · exact hA.bounds i h1
              · intro p hp
                exact Finset.mem_insert_of_mem (hA.mapRef p (mem_eraseA _ _ _ hp))
              · intro q hq
                rcases mem_insertA _ _ _ _ hq with h1 | h1
                · rw [h1]
                  exact ⟨optIn_mono (Finset.subset_insert _ _) hbrefR.1,
                    optIn_mono (Finset.subset_insert _ _) hbrefR.2⟩
                · have hq2 := hA.bucketRef q h1
                  exact ⟨optIn_mono (Finset.subset_insert _ _) hq2.1,
                    optIn_mono (Finset.subset_insert _ _) hq2.2⟩
              · exact keyLive_set_fresh _ _ _ _ _ hkeyerased
              · exact linksIn_set_fresh _ _ _ _ rfl rfl
                  (linksIn_removeNode _ _ _ _ hA.linksIn hlruA)
              · exact keyInj_set_fresh _ _ _ _ _ hkeyerased hinj2 hknot2 hlruLen
              · exact Finset.mem_insert_self _ _
              · rw [getN_set, if_pos ⟨rfl, hlruLen⟩]
    · rw [if_neg hcap] at hput
      dsimp only at hput
      have hlen : c.keyToNode.length < c.maxSize := Nat.lt_of_not_le hcap
      unfold allocateNode at hput
      by_cases hfc : 0 < c.freeCount
      · rw [if_pos hfc] at hput
        dsimp only at hput
        have hpidx : c.freeNodes.getD (c.freeCount - 1) 0 = c.freeCount - 1 :=
          hc.stackIota _ (by omega)
        rw [hpidx] at hput
        injection hput with hce
        refine ⟨?_, by rw [← hce]⟩
        rw [← hce]
        have hfcM := hc.fcLe
        refine inv_insertNew
          { c with freeCount := c.freeCount - 1,
                   nodePool := c.nodePool.set (c.freeCount - 1)
                     { frequency := 1, prev := none, next := none, key := k, value := v } }
          k (c.freeCount - 1) (insert (c.freeCount - 1) A)
          ?_ ?_ ?_ ?_ ?_ ?_ ?_ ?_ ?_ ?_ ?_ ?_ ?_ ?_ ?_ ?_ ?_ ?_ ?_ ?_
        all_goals (try dsimp only)
        · show (c.nodePool.set _ _).length = c.maxSize
          rw [List.length_set, hc.poolLen]
        · exact hc.freeLen
        · show c.freeCount - 1 ≤ c.maxSize
          omega
        · exact hc.psLe
        · intro i hi
          exact hc.stackIota i (by omega)
        · intro _
          exact hc.fcPos hfc
        · show c.poolSize ≤ (insertA c.keyToNode k (c.freeCount - 1)).length + (c.freeCount - 1)
          rw [length_insertA_of_not_found _ _ _ hfk]
          have := hc.account
          omega
        · exact hc.mapNodup
        · exact hfk
        · exact hc.bucketNodup
        · exact hc.bucketPos
        · show (insertA c.keyToNode k (c.freeCount - 1)).length ≤ c.maxSize
          rw [length_insertA_of_not_found _ _ _ hfk]
          omega
        · intro i hi
          rcases Finset.mem_insert.1 hi with h1 | h1
          · refine ⟨by rw [h1], by rw [h1]; omega⟩
          · have hb := hA.bounds i h1
            exact ⟨by omega, hb.2⟩
        · intro p hp
          exact Finset.mem_insert_of_mem (hA.mapRef p hp)
        · intro q hq
          exact ⟨optIn_mono (Finset.subset_insert _ _) (hA.bucketRef q hq).1,
            optIn_mono (Finset.subset_insert _ _) (hA.bucketRef q hq).2⟩
        · exact keyLive_set_fresh _ _ _ _ _ (fun i hi _ => hA.keyLive i hi)
        · exact linksIn_set_fresh _ _ _ _ rfl rfl hA.linksIn
        · exact keyInj_set_fresh _ _ _ _ _ (fun i hi _ => hA.keyLive i hi) hA.keyInj
            hknotmem (by rw [hc.poolLen]; omega)
        · exact Finset.mem_insert_self _ _
        · rw [getN_set, if_pos ⟨rfl, by rw [hc.poolLen]; omega⟩]
      · by_cases hps : c.maxSize ≤ c.poolSize
        · rw [if_neg hfc, if_pos hps] at hput
          exact absurd hput (by simp)
        · rw [if_neg hfc, if_neg hps] at hput
          dsimp only at hput
          injection hput with hce
          refine ⟨?_, by rw [← hce]⟩
          rw [← hce]
          have hfc0 : c.freeCount = 0 := by omega
          have hpsM : c.poolSize < c.maxSize := Nat.lt_of_not_le hps
          refine inv_insertNew
            { c with nodePool := c.nodePool.set c.poolSize
                       { frequency := 1, prev := none, next := none, key := k, value := v },
                     poolSize := c.poolSize + 1 }
            k c.poolSize (insert c.poolSize A)
            ?_ ?_ ?_ ?_ ?_ ?_ ?_ ?_ ?_ ?_ ?_ ?_ ?_ ?_ ?_ ?_ ?_ ?_ ?_ ?_
          all_goals (try dsimp only)
          · show (c.nodePool.set _ _).length = c.maxSize
            rw [List.length_set, hc.poolLen]
          · exact hc.freeLen
          · exact hc.fcLe
          · show c.poolSize + 1 ≤ c.maxSize
            omega
          · intro i hi
            exact hc.stackIota i hi
          · intro h
            exact absurd h (by omega)
          · show c.poolSize + 1 ≤ (insertA c.keyToNode k c.poolSize).length + c.freeCount
            rw [length_insertA_of_not_found _ _ _ hfk]
            have := hc.account
            omega
          · exact hc.mapNodup
          · exact hfk
          · exact hc.bucketNodup
          · exact hc.bucketPos
          · show (insertA c.keyToNode k c.poolSize).length ≤ c.maxSize
            rw [length_insertA_of_not_found _ _ _ hfk]
            omega
          · intro i hi
            rcases Finset.mem_insert.1 hi with h1 | h1
            · refine ⟨by omega, by rw [h1]; exact hpsM⟩
            · have hb := hA.bounds i h1
              exact ⟨hb.1, hb.2⟩
          · intro p hp
            exact Finset.mem_insert_of_mem (hA.mapRef p hp)
          · intro q hq
            exact ⟨optIn_mono (Finset.subset_insert _ _) (hA.bucketRef q hq).1,
              optIn_mono (Finset.subset_insert _ _) (hA.bucketRef q hq).2⟩
          · exact keyLive_set_fresh _ _ _ _ _ (fun i hi _ => hA.keyLive i hi)
          · exact linksIn_set_fresh _ _ _ _ rfl rfl hA.linksIn
          · exact keyInj_set_fresh _ _ _ _ _ (fun i hi _ => hA.keyLive i hi) hA.keyInj
              hknotmem (by rw [hc.poolLen]; exact hpsM)
          · exact Finset.mem_insert_self _ _
          · rw [getN_set, if_pos ⟨rfl, by rw [hc.poolLen]; exact hpsM⟩]
  · rw [hfk] at hput
    dsimp only at hput
    have hce : c' = updateFrequency { c with nodePool := setValue c.nodePool idx v } idx := by
      injection hput with h
      exact h.symm
    refine ⟨?_, ?_⟩
    · rw [hce]
      exact inv_updateFrequency _ k idx (inv_setValue c idx v hc) hfk
    · rw [hce]
      exact (updateFrequency_maxSize _ _).trans rfl

end PutInv

end LFU

namespace LFU

section RunInv

variable {K V : Type} [DecidableEq K] [Inhabited K] [Inhabited V]

theorem inv_put (c : LFUCache K V) (k : K) (v : V) (c' : LFUCache K V)
    (hc : Inv c) (hput : put c k v = .ok c') : Inv c' :=
  (inv_put_aux c k v c' hc hput).1

theorem inv_get (c : LFUCache K V) (k : K) (hc : Inv c) : Inv (get c k).2 := by
  unfold get
  rcases hf : findA? c.keyToNode k with _ | idx
  · exact hc
  · exact inv_updateFrequency c k idx hc hf

theorem inv_step (c c' : LFUCache K V) (op : Op K V)
    (hc : Inv c) (h : step c op = .ok c') : Inv c' := by
  cases op with
  | put k v => exact inv_put c k v c' hc h
  | get k =>
    have hce : c' = (get c k).2 := by
      injection h with h2
      exact h2.symm
    rw [hce]
    exact inv_get c k hc
  | getOrThrow k =>
    unfold step at h
    dsimp only at h
    rcases hg : getOrThrow c k with _ | r
    · rw [hg] at h
      injection h with h2
      rw [← h2]
      exact hc
    · rw [hg] at h
      injection h with h2
      rw [← h2]
      unfold getOrThrow at hg
      rcases hf : findA? c.keyToNode k with _ | idx
      · rw [hf] at hg
        simp at hg
      · rw [hf] at hg
        dsimp only at hg
        injection hg with hg2
        rw [← hg2]
        exact inv_updateFrequency c k idx hc hf
  | getOrDefault k d =>
    unfold step at h
    injection h with h2
    rw [← h2]
    unfold getOrDefault
    rcases hf : findA? c.keyToNode k with _ | idx
    · exact hc
    · exact inv_updateFrequency c k idx hc hf
  | contains k =>
    injection h with h2
    rw [← h2]
    exact hc
  | size =>
    injection h with h2
    rw [← h2]
    exact hc
  | capacity =>
    injection h with h2
    rw [← h2]
    exact hc
  | clear =>
    injection h with h2
    rw [← h2]
    exact inv_clear c hc

theorem inv_run (c c' : LFUCache K V) (ops : List (Op K V))
    (hc : Inv c) (h : run c ops = .ok c') : Inv c' := by
  induction ops generalizing c with
  | nil =>
    unfold run at h
    injection h with h2
    rw [← h2]
    exact hc
  | cons op ops ih =>
    unfold run at h
    rcases hs : step c op with e | c2
    · rw [hs] at h
      simp at h
    · rw [hs] at h
      exact ih _ (inv_step c c2 op hc hs) h

theorem put_maxSize (c : LFUCache K V) (k : K) (v : V) (c' : LFUCache K V)
    (hc : Inv c) (h : put c k v = .ok c') : c'.maxSize = c.maxSize :=
  (inv_put_aux c k v c' hc h).2

theorem step_maxSize (c c' : LFUCache K V) (op : Op K V)
    (hc : Inv c) (h : step c op = .ok c') : c'.maxSize = c.maxSize := by
  cases op with
  | put k v => exact put_maxSize c k v c' hc h
  | get k =>
    injection h with h2
    rw [← h2]
    unfold get
    split <;> rfl
  | getOrThrow k =>
    unfold step at h
    dsimp only at h
    split at h
    all_goals (injection h with h2; rw [← h2])
    all_goals try rfl
    rename_i r hg
    unfold getOrThrow at hg
    split at hg
    · simp at hg
    · injection hg with hg2
      rw [← hg2]
      exact (updateFrequency_maxSize _ _).trans rfl
  | getOrDefault k d =>
    injection h with h2
    rw [← h2]
    unfold getOrDefault
    split <;> rfl
  | contains k =>
    injection h with h2
    rw [← h2]
  | size =>
    injection h with h2
    rw [← h2]
  | capacity =>
    injection h with h2
    rw [← h2]
  | clear =>
    injection h with h2
    rw [← h2]
    rfl

theorem run_maxSize (c c' : LFUCache K V) (ops : List (Op K V))
    (hc : Inv c) (h : run c ops = .ok c') : c'.maxSize = c.maxSize := by
  induction ops generalizing c with
  | nil =>
    unfold run at h
    injection h with h2
    rw [← h2]
  | cons op ops ih =>
    unfold run at h
    rcases hs : step c op with e | c2
    · rw [hs] at h
      simp at h
    · rw [hs] at h
      exact (ih c2 (inv_step c c2 op hc hs) h).trans (step_maxSize c c2 op hc hs)

theorem put_ne_poolExhausted (c : LFUCache K V) (k : K) (v : V)
    (hc : Inv c) (hM : 0 < c.maxSize) :
    put c k v ≠ .error CErr.poolExhausted := by
  intro h
  unfold put at h
  rcases hf : findA? c.keyToNode k with _ | idx
  · rw [hf] at h
    dsimp only at h
    by_cases hcap : c.maxSize ≤ c.keyToNode.length
    · rw [if_pos hcap] at h
      have hne : c.keyToNode ≠ [] := by
        intro he
        rw [he] at hcap
        simp at hcap
        omega
      have hmin := hc.minFreqIn hne
      rcases hfl : findA? c.frequencyToList c.minFrequency with _ | fl
      · rw [hfl] at hmin
        simp at hmin
      · rw [hfl] at h
        dsimp only at h
        have hpos : 1 ≤ fl.size :=
          hc.bucketPos _ (findA?_some_mem _ _ _ hfl)
        rw [if_neg (by omega)] at h
        rcases ht : fl.tail with _ | lru
        · rw [ht] at h
          simp at h
        · rw [ht] at h
          dsimp only at h
          unfold deallocateNode at h
          dsimp only at h
          by_cases hdc : c.freeCount < c.maxSize
          · rw [if_pos hdc] at h
            dsimp only at h
            by_cases hprz : (FrequencyList.removeNode c.nodePool fl lru).2.size = 0
            · rw [if_pos hprz] at h
              dsimp only at h
              unfold allocateNode at h
              rw [if_pos (by dsimp only; omega)] at h
              simp at h
            · rw [if_neg hprz] at h
              dsimp only at h
              unfold allocateNode at h
              rw [if_pos (by dsimp only; omega)] at h
              simp at h
          · rw [if_neg hdc] at h
            simp at h
    · rw [if_neg hcap] at h
      dsimp only at h
      unfold allocateNode at h
      by_cases hfc : 0 < c.freeCount
      · rw [if_pos hfc] at h
        simp at h
      · rw [if_neg hfc] at h
        have hps : ¬ c.maxSize ≤ c.poolSize := by
          have := hc.account
          omega
        rw [if_neg hps] at h
        simp at h
  · rw [hf] at h
    simp at h

/-- A successful capacity-2 run (with a `clear` in the middle) used to
witness the size bound on a concrete execution. -/
def c2Ops : List (Op Nat Nat) :=
  [.put 1 10, .put 2 20, .put 3 30, .get 2, .clear, .put 1 11, .put 2 12]

def c2State : LFUCache Nat Nat :=
  (okState (run (LFUCache.mkCache Nat Nat 2) c2Ops)).getD (LFUCache.mkCache Nat Nat 2)

/-- A successful capacity-2 run reaching a corrupted (slot-aliased) state,
used to witness that even there `put` does not hit the exhaustion branch. -/
def c4Ops : List (Op Nat Nat) :=
  [.put 1 10, .clear, .put 1 11, .put 2 12]

def c4State : LFUCache Nat Nat :=
  (okState (run (LFUCache.mkCache Nat Nat 2) c4Ops)).getD (LFUCache.mkCache Nat Nat 2)

/-- A successful capacity-3 run with two live buckets, used to witness the
positive-size-counter property on a concrete execution. -/
def c9Ops : List (Op Nat Nat) :=
  [.put 1 10, .put 2 20, .get 1]

def c9State : LFUCache Nat Nat :=
  (okState (run (LFUCache.mkCache Nat Nat 3) c9Ops)).getD (LFUCache.mkCache Nat Nat 3)

/-- Claim C2. Starting from a freshly constructed cache of any capacity,
after every successful sequence of operations the number of live keys never
exceeds the capacity: `size() ≤ capacity()` holds in every reachable state
(and hence after every operation of any interleaving of `put`, `get`,
`getOrThrow`, `getOrDefault`, `contains`, `size`, `capacity`, `clear`). -/
theorem size_le_capacity_always (M : Nat) (ops : List (Op K V)) (c' : LFUCache K V)
    (h : run (LFUCache.mkCache K V M) ops = .ok c') :
    size c' ≤ (capacity c' : Int) := by
  have hinv := inv_run (LFUCache.mkCache K V M) c' ops (inv_mkCache M) h
  have hs := hinv.sizeLe
  unfold size capacity
  exact_mod_cast hs

theorem size_le_capacity_always_witness :
    size c2State ≤ (capacity c2State : Int) :=
  size_le_capacity_always 2 c2Ops c2State (by rfl)

/-- Claim C4. For every reachable state of a positive-capacity cache and
every key/value pair, `put` never fails with pool exhaustion: on a miss at
capacity the minimum-frequency bucket is present with a positive size
counter, so the eviction path frees a slot before allocation, and below
capacity the pool accounting guarantees a never-used slot, so the
`poolExhausted` branch of `allocateNode` is unreachable.  (The
undefined-behaviour failure of the out-of-bounds free-stack write is a
separate defect, distinct from the exhaustion branch.) -/
theorem put_never_exhausts_pool (M : Nat) (k : K) (v : V) (ops : List (Op K V))
    (c' : LFUCache K V) (hM : 0 < M)
    (h : run (LFUCache.mkCache K V M) ops = .ok c') :
    put c' k v ≠ .error CErr.poolExhausted := by
  have hinv := inv_run (LFUCache.mkCache K V M) c' ops (inv_mkCache M) h
  have hmx := run_maxSize (LFUCache.mkCache K V M) c' ops (inv_mkCache M) h
  refine put_ne_poolExhausted c' k v hinv ?_
  rw [hmx]
  exact hM

theorem put_never_exhausts_pool_witness :
    put c4State 9 99 ≠ .error CErr.poolExhausted :=
  put_never_exhausts_pool 2 9 99 c4Ops c4State (by decide) (by rfl)

/-- Claim C9 (amended). The claim as stated is refuted by a reachable state
in which a bucket with no nodes (`head = tail = none`) survives in the
frequency map; what does hold in every reachable state is the bookkeeping
form of the claim: every frequency present in the map has a bucket whose
size counter is at least 1. -/
theorem buckets_in_map_have_positive_size (M : Nat) (ops : List (Op K V))
    (c' : LFUCache K V) (h : run (LFUCache.mkCache K V M) ops = .ok c') :
    ∀ q ∈ c'.frequencyToList, 1 ≤ q.2.size :=
  (inv_run (LFUCache.mkCache K V M) c' ops (inv_mkCache M) h).bucketPos

theorem buckets_in_map_have_positive_size_witness :
    1 ≤ ((c9State.frequencyToList.getD 0 (1, FrequencyList.init)).2).size :=
  buckets_in_map_have_positive_size 3 c9Ops c9State (by rfl) _ (by decide)

end RunInv

end LFU
